import Mathlib

/-!
# binfile.c: a growable byte buffer with a read and a write cursor

A shallow embedding of `src/binfile/binfile.c` (a Pure Data external).  The
object record `t_binfile` is passed explicitly from call to call.  Everything
the C code sends to the outside (outlet messages, console reports, `fclose`)
is collected in a list of `Event`s, in program order.  What the C code obtains
from the outside is an explicit argument:

* the allocator (`getbytes`, `resizebytes` of Pd) is driven by `heap`, where
  `heap n` tells whether a request for a block of `n` bytes is granted;
* the files are a map from path to content, and short transfers of
  `fread`/`fwrite` are bounded by `xfer`.

A C statement with undefined behaviour (an access outside the allocated block,
a `FILE*` that is null, a float that does not fit the integer type) makes the
embedded function return `none`.

`size_t` offsets are natural numbers: a wrap at `2^64` would need a block of
that many bytes.
-/

namespace Binfile

/-! ## Constants and scalar types -/

/-- Number of bytes to add when resizing the buffer (binfile.c, line 30). -/
def ALLOC_BLOCK_SIZE : Nat := 65536

/-- Size of a path buffer in Pd (m_pd.h). -/
def MAXPDSTRING : Nat := 1000

/-- Size in bytes of one atom of Pd on a 64-bit machine (m_pd.h). -/
def sizeof_t_atom : Nat := 16

/-- The finite values of a C float are rational numbers; the only float
operations of binfile.c are conversions and comparisons, which are exact on
them. -/
abbrev t_float := ℚ

/-- One cell of the buffer. -/
abbrev byte := Fin 256

/-- Conversion of a float to a C integer type: the fractional part is
discarded (rounding toward zero).  The result is kept unbounded here; where
the target type matters the caller checks the range. -/
def float_to_int (f : t_float) : Int :=
  if 0 ≤ f then ⌊f⌋ else ⌈f⌉

/-- Conversion of a float to `size_t`, undefined when the truncated value is
not representable. -/
def float_to_size_t (f : t_float) : Option Nat :=
  if 0 ≤ float_to_int f ∧ float_to_int f < 2 ^ 64 then some (float_to_int f).toNat else none

/-- Conversion of a `size_t` to a float: exact below `2^24`, otherwise rounded
to 24 significant bits, ties to even. -/
def size_t_to_float (n : Nat) : t_float :=
  if n < 2 ^ 24 then (n : ℚ)
  else
    let e := Nat.log2 n - 23
    let q := n / 2 ^ e
    let r := n % 2 ^ e
    let h := 2 ^ (e - 1)
    let q1 := if h < r ∨ (r = h ∧ q % 2 = 1) then q + 1 else q
    ((q1 * 2 ^ e : Nat) : ℚ)

/-- Storing an `int` into a `char` cell keeps its low eight bits; the cell is
always read back through an `unsigned char`. -/
def int_to_char (j : Int) : byte :=
  ⟨(j % 256).toNat, by omega⟩

/-! ## Atoms -/

/-- Atoms of a Pd message, by type tag. -/
inductive t_atom where
  | A_FLOAT (w_float : t_float)
  | A_SYMBOL (w_symbol : String)
  | A_POINTER
  deriving DecidableEq

/-- Pd: the float of a float atom, `0` for any other atom. -/
def atom_getfloat : t_atom → t_float
  | .A_FLOAT f => f
  | _ => 0

/-- Pd: `(int)atom_getfloat(a)`. -/
def atom_getint (a : t_atom) : Int :=
  float_to_int (atom_getfloat a)

/-! ## Memory blocks -/

/-- Pd `getbytes`: a zero-filled block of `nbytes` bytes, or null. -/
def getbytes (heap : Nat → Bool) (nbytes : Nat) : Option (List byte) :=
  if heap nbytes then some (List.replicate nbytes 0) else none

/-- Pd `resizebytes`: `realloc` to `newsize`, then zero-fill what lies beyond
`oldsize`.  The old content up to `min oldsize newsize` is kept; null when the
request is refused. -/
def resizebytes (heap : Nat → Bool) (old : Option (List byte)) (oldsize newsize : Nat) :
    Option (List byte) :=
  if heap newsize then
    some (((old.getD []).take (min oldsize newsize)) ++
      List.replicate (newsize - ((old.getD []).take (min oldsize newsize)).length) 0)
  else none

/-! ## Observable output -/

/-- The three outlets of the object. -/
inductive Outlet where
  | x_bin_outlet
  | x_info_outlet
  | x_bang_outlet
  deriving DecidableEq

/-- Console reports of binfile.c (`error` and `post`), by format string. -/
inductive Report where
  | input_out_of_range (j : Int)
  | input_not_an_integer (f : t_float)
  | input_not_a_float (i : Nat)
  | unable_to_resize_buffer
  | unable_to_open_for_writing (path : String)
  | bytes_written_differ (bytes_written wr_offset : Nat)
  | wrote_bytes (bytes_written : Nat) (path : String)
  | unable_to_open_for_reading (path : String)
  | unable_to_allocate_for (file_length : Nat) (path : String)
  | length_not_equal_to_bytes_read (file_length bytes_read : Nat)
  | read_bytes (bytes_read : Nat) (path : String)
  | unable_to_allocate_buffer (nbytes : Nat)
  deriving DecidableEq

/-- One externally visible action. -/
inductive Event where
  | outlet_bang (o : Outlet)
  | outlet_float (o : Outlet) (v : t_float)
  | outlet_anything (o : Outlet) (selector : String) (v : t_float)
  | error (r : Report)
  | post (r : Report)
  | fclose (path : String)
  deriving DecidableEq

/-! ## The object -/

/-- The fields of `t_binfile` that the code reads (`x_fPath` is only ever
cleared).  `x_fP` is `none` for a null stream and `some p` for a stream open
on file `p`; `x_buf` is `none` for a null pointer and `some b` for an
allocated block of `b.length` bytes. -/
structure t_binfile where
  x_fP : Option String
  x_buf : Option (List byte)
  x_buf_length : Nat
  x_rd_offset : Nat
  x_wr_offset : Nat
  deriving DecidableEq

/-- How one pass through a loop body ends. -/
inductive Flow where
  | next (x : t_binfile)
  | ret (x : t_binfile) (out : List Event)
  | undefined

/-- The statement `x->x_buf[x->x_wr_offset++] = j`. -/
def store (x : t_binfile) (j : Int) : Option t_binfile :=
  match x.x_buf with
  | some b =>
    if x.x_wr_offset < b.length then
      some { x with x_buf := some (b.set x.x_wr_offset (int_to_char j)),
                    x_wr_offset := x.x_wr_offset + 1 }
    else none
  | none => none

/-- Body of the loop of `binfile_add` for the atom `a` at index `i`.  The
C code converts the float to `int` first; for a float outside the range of
`int` that conversion is undefined, but whatever `int` it yields the atom is
rejected by one of the two guards, as it is here (only the number shown in the
report may differ). -/
def binfile_add_body (heap : Nat → Bool) (i : Nat) (a : t_atom) (x : t_binfile) : Flow :=
  match a with
  | .A_FLOAT f =>
    if atom_getint a < -128 ∨ atom_getint a > 255 then
      .ret x [.error (.input_out_of_range (atom_getint a))]
    else if ((atom_getint a : Int) : t_float) ≠ f then
      .ret x [.error (.input_not_an_integer f)]
    else if x.x_buf_length ≤ x.x_wr_offset then
      match resizebytes heap x.x_buf x.x_buf_length (x.x_buf_length + ALLOC_BLOCK_SIZE) with
      | none => .ret { x with x_buf := none } [.error .unable_to_resize_buffer]
      | some b =>
        match store { x with x_buf := some b,
                             x_buf_length := x.x_buf_length + ALLOC_BLOCK_SIZE }
                    (atom_getint a) with
        | some y => .next y
        | none => .undefined
    else
      match store x (atom_getint a) with
      | some y => .next y
      | none => .undefined
  | _ => .ret x [.error (.input_not_a_float i)]

/-- The loop `for (i = 0; i < argc; ++i)` of `binfile_add`, from index `i` on. -/
def binfile_add_loop (heap : Nat → Bool) : Nat → List t_atom → t_binfile →
    Option (t_binfile × List Event)
  | _, [], x => some (x, [])
  | i, a :: argv, x =>
    match binfile_add_body heap i a x with
    | .next y => binfile_add_loop heap (i + 1) argv y
    | .ret y out => some (y, out)
    | .undefined => none

/-- `binfile_add`: add a list of bytes to the buffer. -/
def binfile_add (heap : Nat → Bool) (x : t_binfile) (argv : List t_atom) :
    Option (t_binfile × List Event) :=
  binfile_add_loop heap 0 argv x

/-- `binfile_list` forwards to `binfile_add`. -/
def binfile_list (heap : Nat → Bool) (x : t_binfile) (argv : List t_atom) :
    Option (t_binfile × List Event) :=
  binfile_add heap x argv

/-- `binfile_float`: add a single byte. -/
def binfile_float (heap : Nat → Bool) (x : t_binfile) (val : t_float) :
    Option (t_binfile × List Event) :=
  binfile_add heap x [.A_FLOAT val]

/-- `binfile_clear`. -/
def binfile_clear (x : t_binfile) : t_binfile :=
  { x with x_wr_offset := 0, x_rd_offset := 0 }

/-- `binfile_set`: clear, then add a list of bytes to the buffer. -/
def binfile_set (heap : Nat → Bool) (x : t_binfile) (argv : List t_atom) :
    Option (t_binfile × List Event) :=
  binfile_add heap (binfile_clear x) argv

/-- `binfile_rewind`. -/
def binfile_rewind (x : t_binfile) : t_binfile :=
  { x with x_rd_offset := 0 }

/-- `binfile_bang`: send the next byte out of the bin outlet. -/
def binfile_bang (x : t_binfile) : Option (t_binfile × List Event) :=
  if x.x_rd_offset < x.x_wr_offset then
    match x.x_buf.bind (fun b => b[x.x_rd_offset]?) with
    | some c =>
      some ({ x with x_rd_offset := x.x_rd_offset + 1 },
        (if x.x_rd_offset + 1 = x.x_wr_offset then [Event.outlet_bang .x_bang_outlet] else []) ++
          [Event.outlet_float .x_bin_outlet ((c.val : Nat) : ℚ)])
    | none => none
  else some (x, [Event.outlet_bang .x_bin_outlet])

/-- `binfile_bang` once more, each output paired with the object as it is at
the moment the output is sent: the statement that fetches the byte increments
the read offset before either outlet is called.  `none` as in `binfile_bang`. -/
def binfile_bang_sends (x : t_binfile) : Option (List (t_binfile × Event)) :=
  if x.x_rd_offset < x.x_wr_offset then
    match x.x_buf.bind (fun b => b[x.x_rd_offset]?) with
    | some c =>
      some ((if x.x_rd_offset + 1 = x.x_wr_offset then
              [({ x with x_rd_offset := x.x_rd_offset + 1 }, Event.outlet_bang .x_bang_outlet)]
             else []) ++
            [({ x with x_rd_offset := x.x_rd_offset + 1 },
              Event.outlet_float .x_bin_outlet ((c.val : Nat) : ℚ))])
    | none => none
  else some [(x, Event.outlet_bang .x_bin_outlet)]

/-- `binfile_info`: three reports on the info outlet, through a scratch atom
taken from the heap (and not checked for null). -/
def binfile_info (heap : Nat → Bool) (x : t_binfile) : Option (t_binfile × List Event) :=
  match getbytes heap sizeof_t_atom with
  | some _ =>
    some (x, [Event.outlet_anything .x_info_outlet "buflength" (size_t_to_float x.x_buf_length),
              Event.outlet_anything .x_info_outlet "readoffset" (size_t_to_float x.x_rd_offset),
              Event.outlet_anything .x_info_outlet "writeoffset" (size_t_to_float x.x_wr_offset)])
  | none => none

/-! ## Files -/

/-- What one call finds outside of the object: the allocator, which paths can
be opened for writing, and the most bytes one `fread` or `fwrite` transfers. -/
structure Env where
  heap : Nat → Bool
  writable : String → Bool
  xfer : Nat

/-- The readable files: the content of each path that `fopen` can open for
reading. -/
abbrev Files := String → Option (List byte)

/-- The two modes binfile.c opens files with. -/
inductive Mode where
  | rb
  | wb
  deriving DecidableEq

/-- C `fopen`: the stream (named by its file) or null, and the files
afterwards; mode `wb` creates the file or truncates it. -/
def fopen (env : Env) (files : Files) (p : String) : Mode → Option String × Files
  | .rb => (if (files p).isSome then some p else none, files)
  | .wb => if env.writable p then (some p, Function.update files p (some [])) else (none, files)

/-- The local `tryPath` of `binfile_open_path`: at most `MAXPDSTRING - 1`
characters of the path, copied by `strncpy` (one character of the model stands
for one `char` of the C string). -/
def tryPath (path : String) : String :=
  ⟨path.data.take (MAXPDSTRING - 1)⟩

/-- `binfile_open_path`: the path is copied into a length-limited buffer, and
that copy is opened. -/
def binfile_open_path (env : Env) (files : Files) (path : String) (mode : Mode) :
    Option String × Files :=
  fopen env files (tryPath path) mode

/-- C `fwrite(buf, 1, count, fP)`: appends the bytes written to the file and
returns their number; undefined on a null stream, or when `count` bytes cannot
be read from `buf`. -/
def fwrite (env : Env) (files : Files) (buf : Option (List byte)) (count : Nat)
    (fP : Option String) : Option (Nat × Files) :=
  match fP with
  | none => none
  | some p =>
    if count = 0 then some (0, files)
    else
      match buf with
      | some b =>
        if count ≤ b.length then
          some (min env.xfer count,
            Function.update files p (some ((files p).getD [] ++ b.take (min env.xfer count))))
        else none
      | none => none

/-- `binfile_write`: open the file for writing, write the buffer up to the
write offset, close the file.  There is no return after the report of a failed
open, so the null stream reaches `fwrite`, which is undefined. -/
def binfile_write (env : Env) (files : Files) (x : t_binfile) (path : String) :
    Option (t_binfile × Files × List Event) :=
  match binfile_open_path env files path .wb with
  | (none, _) => none
  | (some p, files1) =>
    match fwrite env files1 x.x_buf x.x_wr_offset (some p) with
    | none => none
    | some (bytes_written, files2) =>
      some ({ x with x_fP := none }, files2,
        [if bytes_written ≠ x.x_wr_offset then
            Event.post (.bytes_written_differ bytes_written x.x_wr_offset)
          else Event.post (.wrote_bytes bytes_written path),
         Event.fclose p])

/-- `binfile_read`: open the file for reading and load it into a block of its
own length.  The two early returns after a successful open leave the stream
open and stored in `x_fP`. -/
def binfile_read (env : Env) (files : Files) (x : t_binfile) (path : String) :
    t_binfile × List Event :=
  match (binfile_open_path env files path .rb).1 with
  | none => ({ x with x_fP := none }, [Event.error (.unable_to_open_for_reading path)])
  | some p =>
    if ((files p).getD []).length = 0 then ({ x with x_fP := some p }, [])
    else
      match getbytes env.heap ((files p).getD []).length with
      | none =>
        ({ x with x_fP := some p, x_buf := none, x_buf_length := 0 },
          [Event.error (.unable_to_allocate_for ((files p).getD []).length path)])
      | some b =>
        ({ x_fP := none,
           x_buf := some (((files p).getD []).take (min env.xfer ((files p).getD []).length) ++
                     b.drop (min env.xfer ((files p).getD []).length)),
           x_buf_length := min env.xfer ((files p).getD []).length,
           x_wr_offset := min env.xfer ((files p).getD []).length,
           x_rd_offset := 0 },
          [Event.fclose p,
           if min env.xfer ((files p).getD []).length ≠ ((files p).getD []).length then
             Event.post (.length_not_equal_to_bytes_read ((files p).getD []).length
               (min env.xfer ((files p).getD []).length))
           else Event.post (.read_bytes (min env.xfer ((files p).getD []).length) path)])

/-- First loop of `binfile_new`: every symbol of the argument list is read as
a file (the loop has no break). -/
def binfile_new_paths (env : Env) (files : Files) : List t_atom → t_binfile × List Event →
    t_binfile × List Event
  | [], acc => acc
  | .A_SYMBOL s :: argv, acc =>
    binfile_new_paths env files argv
      ((binfile_read env files acc.1 s).1, acc.2 ++ (binfile_read env files acc.1 s).2)
  | _ :: argv, acc => binfile_new_paths env files argv acc

/-- Second loop of `binfile_new`: the first float of the argument list, if
any, becomes the buffer length. -/
def binfile_new_length (x : t_binfile) : List t_atom → Option t_binfile
  | [] => some x
  | .A_FLOAT f :: _ => (float_to_size_t f).map (fun n => { x with x_buf_length := n })
  | _ :: argv => binfile_new_length x argv

/-- `binfile_new`, from the zero-filled object that `pd_new` returns. -/
def binfile_new (env : Env) (files : Files) (argv : List t_atom) :
    Option (t_binfile × List Event) :=
  match binfile_new_paths env files argv
      ({ x_fP := none, x_buf := none, x_buf_length := ALLOC_BLOCK_SIZE,
         x_rd_offset := 0, x_wr_offset := 0 }, []) with
  | (x1, out1) =>
    match binfile_new_length x1 argv with
    | none => none
    | some x2 =>
      match getbytes env.heap x2.x_buf_length with
      | none => some ({ x2 with x_buf := none },
          out1 ++ [Event.error (.unable_to_allocate_buffer x2.x_buf_length)])
      | some b => some ({ x2 with x_buf := some b }, out1)

/-! ## The method table of `binfile_setup` -/

/-- The messages the class answers to. -/
inductive Method where
  | bang
  | float (val : t_float)
  | list (argv : List t_atom)
  | read (path : String)
  | write (path : String)
  | add (argv : List t_atom)
  | set (argv : List t_atom)
  | clear
  | rewind
  | info

/-- One message sent to the object, in the environment `env`. -/
def dispatch (env : Env) (w : t_binfile × Files) : Method →
    Option ((t_binfile × Files) × List Event)
  | .bang => (binfile_bang w.1).map (fun r => ((r.1, w.2), r.2))
  | .float val => (binfile_float env.heap w.1 val).map (fun r => ((r.1, w.2), r.2))
  | .list argv => (binfile_list env.heap w.1 argv).map (fun r => ((r.1, w.2), r.2))
  | .read path => some (((binfile_read env w.2 w.1 path).1, w.2), (binfile_read env w.2 w.1 path).2)
  | .write path => (binfile_write env w.2 w.1 path).map (fun r => ((r.1, r.2.1), r.2.2))
  | .add argv => (binfile_add env.heap w.1 argv).map (fun r => ((r.1, w.2), r.2))
  | .set argv => (binfile_set env.heap w.1 argv).map (fun r => ((r.1, w.2), r.2))
  | .clear => some ((binfile_clear w.1, w.2), [])
  | .rewind => some ((binfile_rewind w.1, w.2), [])
  | .info => (binfile_info env.heap w.1).map (fun r => ((r.1, w.2), r.2))

/-! ## Sequences of calls and predicates on the object -/

/-- A sequence of calls of `binfile_add`, one argument list per call. -/
def append_calls (heap : Nat → Bool) : t_binfile → List (List t_atom) → Option t_binfile
  | x, [] => some x
  | x, argv :: calls =>
    match binfile_add heap x argv with
    | some (y, _) => append_calls heap y calls
    | none => none

/-- A run of `n` consecutive calls of `binfile_bang`, with the output of each
call. -/
def bang_calls : Nat → t_binfile → Option (t_binfile × List (List Event))
  | 0, x => some (x, [])
  | n + 1, x =>
    match binfile_bang x with
    | some (y, out) => (bang_calls n y).map (fun r => (r.1, out :: r.2))
    | none => none

/-- The float atom that carries the integer `v`. -/
def int_atom (v : Int) : t_atom := .A_FLOAT (v : ℚ)

/-- The written region `storage[0..write_offset)`. -/
def written (x : t_binfile) : List byte :=
  (x.x_buf.getD []).take x.x_wr_offset

/-- The cursor invariant of the data model: `read_offset ≤ write_offset ≤
capacity` (offsets are natural numbers, so `0 ≤ read_offset` always holds). -/
def cursors_ok (x : t_binfile) : Prop :=
  x.x_rd_offset ≤ x.x_wr_offset ∧ x.x_wr_offset ≤ x.x_buf_length

/-- The buffer pointer is not null and its block has the bytes that
`x_buf_length` announces. -/
def block_ok (x : t_binfile) : Prop :=
  ∃ b, x.x_buf = some b ∧ x.x_buf_length ≤ b.length

/-- Whether `binfile_add` accepts the atom: a float equal to an integer from
`-128` to `255`, as tested by the loop body. -/
def accepted : t_atom → Bool
  | .A_FLOAT f =>
    decide (¬ (float_to_int f < -128 ∨ float_to_int f > 255) ∧ ((float_to_int f : Int) : ℚ) = f)
  | _ => false

/-- The capacity that the growth policy reaches from capacity `c` once the
write offset has advanced to `t`: `c` itself when `t` fits, otherwise `c` plus
the least number of blocks that makes room for `t` bytes. -/
def grown (c t : Nat) : Nat :=
  if t ≤ c then c
  else c + (t - c + (ALLOC_BLOCK_SIZE - 1)) / ALLOC_BLOCK_SIZE * ALLOC_BLOCK_SIZE

/-- What one call of `binfile_bang` sends when it consumes cell `k` of block
`b` while the write offset is `w`. -/
def bang_output (b : List byte) (w k : Nat) : List Event :=
  (if k + 1 = w then [Event.outlet_bang .x_bang_outlet] else []) ++
    [Event.outlet_float .x_bin_outlet (((b.getD k 0).val : Nat) : ℚ)]

/-- The first float of an argument list, the one `binfile_new` takes as the
buffer length. -/
def first_float : List t_atom → Option t_float
  | [] => none
  | .A_FLOAT f :: _ => some f
  | _ :: argv => first_float argv

/-- Whether the message is a Load whose allocation is refused: the file
opens, is not empty, and no block of its length is granted. -/
def load_refused (env : Env) (files : Files) : Method → Bool
  | .read path =>
    match files (tryPath path) with
    | some data => decide (data.length ≠ 0) && !env.heap data.length
    | none => false
  | _ => false

/-- The states of the object and the files that can be reached: by a
construction without a path argument, then by any messages that return, a Load
whose allocation is refused excepted. -/
inductive Reachable : t_binfile × Files → Prop where
  | construct (env : Env) (files : Files) (argv : List t_atom) (x : t_binfile)
      (out : List Event) (hargs : ∀ a ∈ argv, ∀ s, a ≠ t_atom.A_SYMBOL s)
      (hnew : binfile_new env files argv = some (x, out)) : Reachable (x, files)
  | message (env : Env) (w v : t_binfile × Files) (m : Method) (out : List Event)
      (hw : Reachable w) (hload : load_refused env w.2 m = false)
      (hstep : dispatch env w m = some (v, out)) : Reachable v

/-! ## Example data -/

/-- A zero-filled block of one allocation unit. -/
def unit_block : List byte := List.replicate 65536 0

/-- An empty buffer of capacity 65536. -/
def unit_buffer : t_binfile :=
  { x_fP := none, x_buf := some unit_block, x_buf_length := 65536,
    x_rd_offset := 0, x_wr_offset := 0 }

/-- A list of 65537 byte values: 65536 ones and a final two. -/
def unit_and_one : List Int := List.replicate 65536 1 ++ [2]

/-- A buffer of capacity 16777217, one above `2^24`: the capacity after 256
growth steps from capacity 1, or after the load of a file of that length.
Three bytes are written and one of them is consumed. -/
def large_buffer : t_binfile :=
  { x_fP := none, x_buf := some (List.replicate 16777217 0), x_buf_length := 16777217,
    x_rd_offset := 1, x_wr_offset := 3 }

/-! ## Lemmas -/

theorem float_to_int_intCast (v : Int) : float_to_int (v : ℚ) = v := by
  unfold float_to_int
  split <;> simp

theorem take_succ_set {α : Type} (b : List α) (w : Nat) (v : α) (h : w < b.length) :
    (b.set w v).take (w + 1) = b.take w ++ [v] := by
  induction b generalizing w with
  | nil => simp at h
  | cons a t ih =>
    cases w with
    | zero => simp
    | succ k =>
      have hk : k < t.length := by simpa using h
      simp [List.set, ih k hk]

/-- The loop body on an accepted integer, when the allocator grants the growth
that a full buffer asks for. -/
theorem add_body_int (heap : Nat → Bool) (i : Nat) (v : Int)
    (hv : -128 ≤ v ∧ v ≤ 255) (x : t_binfile) (b : List byte) (hb : x.x_buf = some b)
    (hlen : x.x_buf_length ≤ b.length) (hw : x.x_wr_offset ≤ x.x_buf_length)
    (hheap : x.x_wr_offset = x.x_buf_length → heap (x.x_buf_length + ALLOC_BLOCK_SIZE) = true) :
    ∃ y c, binfile_add_body heap i (int_atom v) x = .next y ∧ y.x_buf = some c ∧
      y.x_buf_length ≤ c.length ∧ y.x_wr_offset = x.x_wr_offset + 1 ∧
      y.x_wr_offset ≤ y.x_buf_length ∧ y.x_rd_offset = x.x_rd_offset ∧ y.x_fP = x.x_fP ∧
      y.x_buf_length =
        (if x.x_wr_offset = x.x_buf_length then x.x_buf_length + ALLOC_BLOCK_SIZE
         else x.x_buf_length) ∧
      c.take y.x_wr_offset = b.take x.x_wr_offset ++ [int_to_char v] := by
  have hr1 : ¬ (v < -128 ∨ v > 255) := by omega
  by_cases hfull : x.x_buf_length ≤ x.x_wr_offset
  · have heq : x.x_wr_offset = x.x_buf_length := by omega
    have hA : 0 < ALLOC_BLOCK_SIZE := by unfold ALLOC_BLOCK_SIZE; omega
    have hmin : min x.x_buf_length (x.x_buf_length + ALLOC_BLOCK_SIZE) = x.x_buf_length := by
      simp
    have hlt : x.x_wr_offset <
        (b.take x.x_buf_length ++ List.replicate ALLOC_BLOCK_SIZE (0 : byte)).length := by
      simp only [List.length_append, List.length_take, List.length_replicate]; omega
    refine ⟨{ x with
        x_buf := some ((b.take x.x_buf_length ++
          List.replicate ALLOC_BLOCK_SIZE (0 : byte)).set x.x_wr_offset (int_to_char v)),
        x_buf_length := x.x_buf_length + ALLOC_BLOCK_SIZE,
        x_wr_offset := x.x_wr_offset + 1 }, _, ?_, rfl, ?_, rfl, ?_, rfl, rfl, ?_, ?_⟩
    · simp only [binfile_add_body, int_atom, atom_getint, atom_getfloat, float_to_int_intCast,
        hr1, if_false, ne_eq, not_true_eq_false, hfull, if_true, resizebytes, hheap heq, hb,
        Option.getD_some, hmin, List.length_take, Nat.min_eq_left hlen, Nat.add_sub_cancel_left,
        store, hlt]
    · simp only [List.length_set, List.length_append, List.length_take, List.length_replicate]
      omega
    · show x.x_wr_offset + 1 ≤ x.x_buf_length + ALLOC_BLOCK_SIZE
      omega
    · simp [heq]
    · rw [take_succ_set _ _ _ hlt]
      simp [heq, List.take_append_of_le_length, Nat.min_eq_left hlen]
  · have hlt : x.x_wr_offset < b.length := by omega
    refine ⟨{ x with
        x_buf := some (b.set x.x_wr_offset (int_to_char v)),
        x_wr_offset := x.x_wr_offset + 1 }, _, ?_, rfl, ?_, rfl, ?_, rfl, rfl, ?_, ?_⟩
    · simp only [binfile_add_body, int_atom, atom_getint, atom_getfloat, float_to_int_intCast,
        hr1, if_false, ne_eq, not_true_eq_false, hfull, store, hb, hlt, if_true]
    · simpa using hlen
    · show x.x_wr_offset + 1 ≤ x.x_buf_length
      omega
    · have hne : x.x_wr_offset ≠ x.x_buf_length := by omega
      simp [hne]
    · exact take_succ_set _ _ _ hlt

theorem grown_step (c w n : Nat) :
    grown (if w = c then c + ALLOC_BLOCK_SIZE else c) (w + 1 + n) = grown c (w + (n + 1)) := by
  unfold grown ALLOC_BLOCK_SIZE
  split_ifs <;> omega

theorem grown_first (c n : Nat) : c + ALLOC_BLOCK_SIZE ≤ grown c (c + (n + 1)) := by
  unfold grown ALLOC_BLOCK_SIZE
  split_ifs <;> omega

/-- The loop of `binfile_add` on accepted integers followed by any atoms
`rest`, when the allocator grants every size up to the capacity the growth
policy ends with: the loop appends every integer and goes on with `rest`. -/
theorem add_loop_ints_then (heap : Nat → Bool) (vs : List Int)
    (hvs : ∀ v ∈ vs, -128 ≤ v ∧ v ≤ 255) :
    ∀ (i : Nat) (x : t_binfile) (b : List byte), x.x_buf = some b →
      x.x_buf_length ≤ b.length → x.x_wr_offset ≤ x.x_buf_length →
      (∀ k, x.x_buf_length < k → k ≤ grown x.x_buf_length (x.x_wr_offset + vs.length) →
        heap k = true) →
      ∃ y c, (∀ rest, binfile_add_loop heap i (vs.map int_atom ++ rest) x =
          binfile_add_loop heap (i + vs.length) rest y) ∧ y.x_buf = some c ∧
        y.x_buf_length ≤ c.length ∧ y.x_wr_offset = x.x_wr_offset + vs.length ∧
        y.x_wr_offset ≤ y.x_buf_length ∧ y.x_rd_offset = x.x_rd_offset ∧ y.x_fP = x.x_fP ∧
        y.x_buf_length = grown x.x_buf_length (x.x_wr_offset + vs.length) ∧
        c.take y.x_wr_offset = b.take x.x_wr_offset ++ vs.map int_to_char := by
  induction vs with
  | nil =>
    intro i x b hb hlen hw _
    refine ⟨x, b, fun _ => rfl, hb, hlen, rfl, hw, rfl, rfl, ?_, ?_⟩
    · simp [grown, hw]
    · simp
  | cons v t ih =>
    intro i x b hb hlen hw hheap
    have hA : 0 < ALLOC_BLOCK_SIZE := by unfold ALLOC_BLOCK_SIZE; omega
    obtain ⟨y, c, hy, hyb, hyl, hyw, hyc, hyr, hyf, hycap, hyt⟩ :=
      add_body_int heap i v (hvs v (List.mem_cons_self v t)) x b hb hlen hw
        (fun heq => hheap _ (by omega) (by
          rw [heq, List.length_cons]
          exact grown_first _ _))
    have hg : grown y.x_buf_length (y.x_wr_offset + t.length) =
        grown x.x_buf_length (x.x_wr_offset + (v :: t).length) := by
      rw [hycap, hyw, List.length_cons]
      exact grown_step _ _ _
    have hmono : x.x_buf_length ≤ y.x_buf_length := by
      rw [hycap]; split_ifs <;> omega
    obtain ⟨z, d, hz, hzb, hzl, hzw, hzc, hzr, hzf, hzcap, hzt⟩ :=
      ih (fun u hu => hvs u (List.mem_cons_of_mem v hu)) (i + 1) y c hyb hyl hyc
        (fun k hk1 hk2 => hheap k (by omega) (by rw [← hg]; exact hk2))
    refine ⟨z, d, ?_, hzb, hzl, ?_, hzc, ?_, ?_, ?_, ?_⟩
    · intro rest
      have hi : i + (v :: t).length = i + 1 + t.length := by
        rw [List.length_cons]; omega
      rw [hi]
      show binfile_add_loop heap i (int_atom v :: (t.map int_atom ++ rest)) x = _
      simp only [binfile_add_loop, hy]
      exact hz rest
    · simp only [hzw, hyw, List.length_cons]; omega
    · rw [hzr, hyr]
    · rw [hzf, hyf]
    · rw [hzcap, hg]
    · rw [hzt, hyt]
      simp

/-- The loop of `binfile_add` on accepted integers alone runs to the end
without a report. -/
theorem add_loop_ints (heap : Nat → Bool) (vs : List Int)
    (hvs : ∀ v ∈ vs, -128 ≤ v ∧ v ≤ 255) (i : Nat) (x : t_binfile) (b : List byte)
    (hb : x.x_buf = some b) (hlen : x.x_buf_length ≤ b.length)
    (hw : x.x_wr_offset ≤ x.x_buf_length)
    (hheap : ∀ k, x.x_buf_length < k →
      k ≤ grown x.x_buf_length (x.x_wr_offset + vs.length) → heap k = true) :
    ∃ y c, binfile_add_loop heap i (vs.map int_atom) x = some (y, []) ∧ y.x_buf = some c ∧
      y.x_buf_length ≤ c.length ∧ y.x_wr_offset = x.x_wr_offset + vs.length ∧
      y.x_wr_offset ≤ y.x_buf_length ∧ y.x_rd_offset = x.x_rd_offset ∧ y.x_fP = x.x_fP ∧
      y.x_buf_length = grown x.x_buf_length (x.x_wr_offset + vs.length) ∧
      c.take y.x_wr_offset = b.take x.x_wr_offset ++ vs.map int_to_char := by
  obtain ⟨y, c, hy, rest⟩ := add_loop_ints_then heap vs hvs i x b hb hlen hw hheap
  refine ⟨y, c, ?_, rest⟩
  have h := hy []
  rw [List.append_nil] at h
  rw [h]
  rfl

theorem int_to_char_val (v : Int) (h : 0 ≤ v ∧ v ≤ 255) : (((int_to_char v).val : Nat) : Int) = v := by
  simp only [int_to_char]
  omega

theorem map_val_int_to_char (vs : List Int) (h : ∀ v ∈ vs, 0 ≤ v ∧ v ≤ 255) :
    (vs.map int_to_char).map (fun c : byte => ((c.val : Nat) : Int)) = vs := by
  rw [List.map_map]
  calc List.map ((fun c : byte => ((c.val : Nat) : Int)) ∘ int_to_char) vs
      = List.map id vs := List.map_congr_left (fun v hv => int_to_char_val v (h v hv))
    _ = vs := List.map_id _

/-- A sequence of calls of `binfile_add` on accepted integers, with a granted
allocator. -/
theorem append_calls_ints (heap : Nat → Bool) (hheap : ∀ n, heap n = true)
    (calls : List (List Int)) (hv : ∀ c ∈ calls, ∀ v ∈ c, -128 ≤ v ∧ v ≤ 255) :
    ∀ (x : t_binfile), block_ok x → x.x_wr_offset ≤ x.x_buf_length →
      ∃ y, append_calls heap x (calls.map (List.map int_atom)) = some y ∧ block_ok y ∧
        y.x_wr_offset = x.x_wr_offset + calls.flatten.length ∧
        y.x_wr_offset ≤ y.x_buf_length ∧ y.x_rd_offset = x.x_rd_offset ∧
        written y = written x ++ calls.flatten.map int_to_char := by
  induction calls with
  | nil =>
    intro x hx hw
    exact ⟨x, rfl, hx, by simp, hw, rfl, by simp⟩
  | cons c t ih =>
    intro x hx hw
    obtain ⟨b, hb, hlen⟩ := hx
    obtain ⟨y, d, hy, hyb, hyl, hyw, hyc, hyr, _, _, hyt⟩ :=
      add_loop_ints heap c (hv c (List.mem_cons_self c t)) 0 x b hb hlen hw
        (fun k _ _ => hheap k)
    obtain ⟨z, hz, hzb, hzw, hzc, hzr, hzt⟩ :=
      ih (fun u hu => hv u (List.mem_cons_of_mem c hu)) y ⟨d, hyb, hyl⟩ hyc
    refine ⟨z, ?_, hzb, ?_, hzc, ?_, ?_⟩
    · simp only [List.map_cons, append_calls, binfile_add, hy, hz]
    · simp only [hzw, hyw, List.flatten_cons, List.length_append]; omega
    · rw [hzr, hyr]
    · rw [hzt]
      simp only [written, hyb, hb, Option.getD_some, hyt, List.flatten_cons, List.map_append,
        List.append_assoc]

/-- C1: from a buffer whose write offset is 0, whatever its capacity, every
sequence of calls of Append whose elements are integers from 0 to 255 (the
allocator granting each growth) ends with the write offset equal to the number
of elements appended, and with the written region, read as unsigned bytes,
equal to the concatenation of the appended values in call order. -/
theorem append_sequence_from_empty (heap : Nat → Bool) (hheap : ∀ n, heap n = true)
    (x : t_binfile) (hx : block_ok x) (hw : x.x_wr_offset = 0)
    (calls : List (List Int)) (hv : ∀ c ∈ calls, ∀ v ∈ c, 0 ≤ v ∧ v ≤ 255) :
    ∃ y, append_calls heap x (calls.map (List.map int_atom)) = some y ∧
      y.x_wr_offset = calls.flatten.length ∧
      (written y).map (fun c => ((c.val : Nat) : Int)) = calls.flatten := by
  obtain ⟨y, hy, _, hyw, _, _, hyt⟩ :=
    append_calls_ints heap hheap calls
      (fun c hc v hvc => ⟨by have := (hv c hc v hvc).1; omega, (hv c hc v hvc).2⟩)
      x hx (by omega)
  refine ⟨y, hy, by omega, ?_⟩
  have hx0 : written x = [] := by simp [written, hw]
  rw [hyt, hx0, List.nil_append]
  apply map_val_int_to_char
  intro v hvj
  obtain ⟨c, hc, hvc⟩ := List.mem_flatten.mp hvj
  exact hv c hc v hvc

/-- Witness of C1: three bytes appended in two calls to an empty buffer of
capacity 2. -/
theorem append_sequence_from_empty_witness :
    block_ok { x_fP := none, x_buf := some [7, 7], x_buf_length := 2,
               x_rd_offset := 0, x_wr_offset := 0 } ∧
    ∃ y, append_calls (fun _ => true)
        { x_fP := none, x_buf := some [7, 7], x_buf_length := 2,
          x_rd_offset := 0, x_wr_offset := 0 }
        ([[1, 2], [3]].map (List.map int_atom)) = some y ∧
      y.x_wr_offset = [[1, 2], [3]].flatten.length ∧
      (written y).map (fun c => ((c.val : Nat) : Int)) = [[1, 2], [3]].flatten :=
  ⟨⟨[7, 7], rfl, by decide⟩,
   append_sequence_from_empty (fun _ => true) (fun _ => rfl) _ ⟨[7, 7], rfl, by decide⟩ rfl
     [[1, 2], [3]] (by decide)⟩

/-! ### Reading with `binfile_bang` -/

theorem binfile_bang_lt (x : t_binfile) (b : List byte) (hb : x.x_buf = some b)
    (hlen : x.x_wr_offset ≤ b.length) (hlt : x.x_rd_offset < x.x_wr_offset) :
    binfile_bang x = some ({ x with x_rd_offset := x.x_rd_offset + 1 },
      bang_output b x.x_wr_offset x.x_rd_offset) := by
  have hr : x.x_rd_offset < b.length := by omega
  simp [binfile_bang, hlt, hb, bang_output, List.getD_eq_getElem?_getD,
    List.getElem?_eq_getElem hr]

theorem binfile_bang_ge (x : t_binfile) (h : ¬ x.x_rd_offset < x.x_wr_offset) :
    binfile_bang x = some (x, [Event.outlet_bang .x_bin_outlet]) := by
  simp [binfile_bang, h]

/-- A run of `n` calls of `binfile_bang` that ends at the write offset. -/
theorem bang_calls_run (b : List byte) :
    ∀ (n : Nat) (x : t_binfile), x.x_buf = some b → x.x_wr_offset ≤ b.length →
      x.x_rd_offset + n = x.x_wr_offset →
      bang_calls n x = some ({ x with x_rd_offset := x.x_wr_offset },
        (List.range n).map (fun k => bang_output b x.x_wr_offset (x.x_rd_offset + k))) := by
  intro n
  induction n with
  | zero =>
    intro x _ _ hn
    have h : x.x_rd_offset = x.x_wr_offset := by omega
    obtain ⟨fP, buf, len, rd, wr⟩ := x
    simp only at h
    subst h
    rfl
  | succ n ih =>
    intro x hb hlen hn
    have hlt : x.x_rd_offset < x.x_wr_offset := by omega
    have hy := ih { x with x_rd_offset := x.x_rd_offset + 1 } hb hlen
      (by show x.x_rd_offset + 1 + n = x.x_wr_offset; omega)
    simp only [bang_calls, binfile_bang_lt x b hb hlen hlt, hy, Option.map_some',
      List.range_succ_eq_map, List.map_cons, List.map_map, Nat.add_zero]
    congr 2
    congr 1
    apply List.map_congr_left
    intro k _
    simp only [Function.comp_apply]
    congr 1
    omega

/-- C3: from read offset 0 and write offset `n` (in particular `n ≥ 1`), `n`
consecutive calls of Next return, and call number `k + 1` sends the byte of
cell `k` of the storage, as a number from 0 to 255, each cell once and in
storage order; the end-of-data bang is sent by call `n` and by no earlier one;
afterwards the read offset is `n` and nothing else has changed. -/
theorem next_traversal (x : t_binfile) (b : List byte) (n : Nat) (hb : x.x_buf = some b)
    (hlen : x.x_wr_offset ≤ b.length) (hr : x.x_rd_offset = 0) (hw : x.x_wr_offset = n) :
    bang_calls n x = some ({ x with x_rd_offset := n },
      (List.range n).map (fun k =>
        if k + 1 = n then
          [Event.outlet_bang .x_bang_outlet,
           Event.outlet_float .x_bin_outlet (((b.getD k 0).val : Nat) : ℚ)]
        else [Event.outlet_float .x_bin_outlet (((b.getD k 0).val : Nat) : ℚ)])) := by
  rw [bang_calls_run b n x hb hlen (by omega), hw, hr]
  congr 2
  apply List.map_congr_left
  intro k _
  simp only [bang_output, Nat.zero_add]
  split_ifs <;> rfl

/-- Witness of C3: three stored bytes are read back by three calls. -/
theorem next_traversal_witness :
    bang_calls 3 { x_fP := none, x_buf := some [10, 20, 30, 40], x_buf_length := 4,
                   x_rd_offset := 0, x_wr_offset := 3 } =
      some ({ x_fP := none, x_buf := some [10, 20, 30, 40], x_buf_length := 4,
              x_rd_offset := 3, x_wr_offset := 3 },
        [[Event.outlet_float .x_bin_outlet 10],
         [Event.outlet_float .x_bin_outlet 20],
         [Event.outlet_bang .x_bang_outlet, Event.outlet_float .x_bin_outlet 30]]) := by
  have h := next_traversal
    { x_fP := none, x_buf := some [10, 20, 30, 40], x_buf_length := 4,
      x_rd_offset := 0, x_wr_offset := 3 } [10, 20, 30, 40] 3 rfl (by decide) rfl rfl
  rw [h]
  decide

/-- C8: Rewind sets the read offset to 0 and changes no other field, whatever
the read offset was; the `n` calls of Next that follow, `n` being the write
offset, return and send the cells `0` to `n - 1` of the storage again, from the
start and in the same order. -/
theorem rewind_then_traversal (x : t_binfile) (b : List byte) (hb : x.x_buf = some b)
    (hlen : x.x_wr_offset ≤ b.length) :
    binfile_rewind x = { x with x_rd_offset := 0 } ∧
    bang_calls x.x_wr_offset (binfile_rewind x) =
      some ({ x with x_rd_offset := x.x_wr_offset },
        (List.range x.x_wr_offset).map (fun k =>
          if k + 1 = x.x_wr_offset then
            [Event.outlet_bang .x_bang_outlet,
             Event.outlet_float .x_bin_outlet (((b.getD k 0).val : Nat) : ℚ)]
          else [Event.outlet_float .x_bin_outlet (((b.getD k 0).val : Nat) : ℚ)])) := by
  refine ⟨rfl, ?_⟩
  rw [bang_calls_run b x.x_wr_offset (binfile_rewind x) hb hlen
    (by show 0 + x.x_wr_offset = x.x_wr_offset; omega)]
  simp only [binfile_rewind]
  congr 2
  apply List.map_congr_left
  intro k _
  simp only [bang_output, Nat.zero_add]
  split_ifs <;> rfl

/-- Witness of C8: a buffer of three bytes of which two were consumed. -/
theorem rewind_then_traversal_witness :
    binfile_rewind { x_fP := none, x_buf := some [10, 20, 30, 40], x_buf_length := 4,
                     x_rd_offset := 2, x_wr_offset := 3 } =
      { x_fP := none, x_buf := some [10, 20, 30, 40], x_buf_length := 4,
        x_rd_offset := 0, x_wr_offset := 3 } ∧
    bang_calls 3 (binfile_rewind { x_fP := none, x_buf := some [10, 20, 30, 40],
                                   x_buf_length := 4, x_rd_offset := 2, x_wr_offset := 3 }) =
      some ({ x_fP := none, x_buf := some [10, 20, 30, 40], x_buf_length := 4,
              x_rd_offset := 3, x_wr_offset := 3 },
        [[Event.outlet_float .x_bin_outlet 10],
         [Event.outlet_float .x_bin_outlet 20],
         [Event.outlet_bang .x_bang_outlet, Event.outlet_float .x_bin_outlet 30]]) := by
  have h := rewind_then_traversal
    { x_fP := none, x_buf := some [10, 20, 30, 40], x_buf_length := 4,
      x_rd_offset := 2, x_wr_offset := 3 } [10, 20, 30, 40] rfl (by decide)
  refine ⟨h.1, ?_⟩
  rw [h.2]
  decide

theorem bang_calls_exhausted (x : t_binfile) (h : ¬ x.x_rd_offset < x.x_wr_offset) (n : Nat) :
    bang_calls n x = some (x, List.replicate n [Event.outlet_bang .x_bin_outlet]) := by
  induction n with
  | zero => rfl
  | succ n ih => simp [bang_calls, binfile_bang_ge x h, ih, List.replicate_succ]

/-- C9: when the read offset equals the write offset (both 0 included), Next
returns, sends the bang of the byte outlet and nothing else (no byte value, no
end-of-data bang) and leaves every field unchanged; hence any number of calls
of Next on such a buffer, an empty one in particular, sends that bang only and
never the end-of-data bang. -/
theorem next_on_exhausted (x : t_binfile) (h : x.x_rd_offset = x.x_wr_offset) :
    binfile_bang x = some (x, [Event.outlet_bang .x_bin_outlet]) ∧
    ∀ n, bang_calls n x = some (x, List.replicate n [Event.outlet_bang .x_bin_outlet]) ∧
      ∀ out ∈ List.replicate n [Event.outlet_bang Outlet.x_bin_outlet],
        Event.outlet_bang .x_bang_outlet ∉ out ∧ ∀ v, Event.outlet_float .x_bin_outlet v ∉ out := by
  have hge : ¬ x.x_rd_offset < x.x_wr_offset := by omega
  refine ⟨binfile_bang_ge x hge, fun n => ⟨bang_calls_exhausted x hge n, ?_⟩⟩
  intro out hout
  rw [List.eq_of_mem_replicate hout]
  simp

/-- Witness of C9: the empty buffer. -/
theorem next_on_exhausted_witness :
    binfile_bang { x_fP := none, x_buf := some [0, 0], x_buf_length := 2,
                   x_rd_offset := 0, x_wr_offset := 0 } =
      some ({ x_fP := none, x_buf := some [0, 0], x_buf_length := 2,
              x_rd_offset := 0, x_wr_offset := 0 }, [Event.outlet_bang .x_bin_outlet]) :=
  (next_on_exhausted { x_fP := none, x_buf := some [0, 0], x_buf_length := 2,
                       x_rd_offset := 0, x_wr_offset := 0 } rfl).1

/-! ### Set -/

/-- C10: `binfile_set` gives, for every prior state and every argument list,
exactly the result of Clear followed by Append (state and reports, undefined
behaviour included); and when the values are integers from 0 to 255 and their
number `m` does not exceed the capacity, the result has read offset 0, write
offset `m`, the values in the first `m` cells and the capacity unchanged,
whatever the buffer held and whatever the allocator would answer. -/
theorem set_is_clear_then_add (heap : Nat → Bool) (x : t_binfile) :
    (∀ argv, binfile_set heap x argv = binfile_add heap (binfile_clear x) argv) ∧
    (∀ vs : List Int, block_ok x → (∀ v ∈ vs, 0 ≤ v ∧ v ≤ 255) →
      vs.length ≤ x.x_buf_length →
      ∃ y, binfile_set heap x (vs.map int_atom) = some (y, []) ∧ y.x_rd_offset = 0 ∧
        y.x_wr_offset = vs.length ∧
        (written y).map (fun c => ((c.val : Nat) : Int)) = vs ∧
        y.x_buf_length = x.x_buf_length) := by
  refine ⟨fun _ => rfl, ?_⟩
  intro vs hx hv hm
  obtain ⟨b, hb, hlen⟩ := hx
  have hg : grown x.x_buf_length (0 + vs.length) = x.x_buf_length := by
    simp [grown, hm]
  obtain ⟨y, c, hy, hyb, _, hyw, _, hyr, _, hycap, hyt⟩ :=
    add_loop_ints heap vs
      (fun v hvs => ⟨by have := (hv v hvs).1; omega, (hv v hvs).2⟩)
      0 (binfile_clear x) b hb hlen (Nat.zero_le _)
      (fun k hk1 hk2 => by
        have h2 : k ≤ grown x.x_buf_length (0 + vs.length) := hk2
        have h1 : x.x_buf_length < k := hk1
        omega)
  refine ⟨y, hy, hyr, ?_, ?_, ?_⟩
  · rw [hyw]; show 0 + vs.length = vs.length; omega
  · have hw0 : (binfile_clear x).x_wr_offset = 0 := rfl
    rw [hw0, List.take_zero, List.nil_append] at hyt
    simp only [written, hyb, Option.getD_some, hyt]
    exact map_val_int_to_char vs hv
  · rw [hycap]; exact hg

/-- Witness of C10: a buffer holding three bytes, one consumed, set to two
values. -/
theorem set_is_clear_then_add_witness :
    ∃ y, binfile_set (fun _ => false)
        { x_fP := none, x_buf := some [10, 20, 30, 40], x_buf_length := 4,
          x_rd_offset := 1, x_wr_offset := 3 } ([5, 6].map int_atom) = some (y, []) ∧
      y.x_rd_offset = 0 ∧ y.x_wr_offset = [5, 6].length ∧
      (written y).map (fun c => ((c.val : Nat) : Int)) = [5, 6] ∧ y.x_buf_length = 4 :=
  (set_is_clear_then_add (fun _ => false)
    { x_fP := none, x_buf := some [10, 20, 30, 40], x_buf_length := 4,
      x_rd_offset := 1, x_wr_offset := 3 }).2 [5, 6] ⟨[10, 20, 30, 40], rfl, by decide⟩
    (by decide) (by decide)

/-! ### Acceptance of a value -/

theorem accepted_float_iff (f : ℚ) :
    accepted (.A_FLOAT f) = true ↔ ∃ n : Int, f = n ∧ -128 ≤ n ∧ n ≤ 255 := by
  constructor
  · intro h
    simp only [accepted, decide_eq_true_eq] at h
    exact ⟨float_to_int f, h.2.symm, by omega, by omega⟩
  · rintro ⟨n, rfl, h1, h2⟩
    simp only [accepted, decide_eq_true_eq, float_to_int_intCast, and_true]
    omega

theorem accepted_eq_int_atom (a : t_atom) (h : accepted a = true) :
    a = int_atom (atom_getint a) ∧ -128 ≤ atom_getint a ∧ atom_getint a ≤ 255 := by
  cases a with
  | A_FLOAT f =>
    obtain ⟨n, rfl, h1, h2⟩ := (accepted_float_iff f).mp h
    simp only [int_atom, atom_getint, atom_getfloat, float_to_int_intCast]
    exact ⟨trivial, h1, h2⟩
  | A_SYMBOL s => simp [accepted] at h
  | A_POINTER => simp [accepted] at h

/-- The loop body on a rejected atom: one error report, the object untouched. -/
theorem add_body_rejected (heap : Nat → Bool) (i : Nat) (a : t_atom) (x : t_binfile)
    (h : accepted a = false) : ∃ r, binfile_add_body heap i a x = .ret x [Event.error r] := by
  cases a with
  | A_FLOAT f =>
    simp only [accepted, decide_eq_false_iff_not, not_and] at h
    by_cases hr : float_to_int f < -128 ∨ float_to_int f > 255
    · exact ⟨.input_out_of_range (float_to_int f),
        by simp only [binfile_add_body, atom_getint, atom_getfloat, hr, if_true]⟩
    · have hne : ((float_to_int f : Int) : ℚ) ≠ f := h hr
      exact ⟨.input_not_an_integer f,
        by simp only [binfile_add_body, atom_getint, atom_getfloat, hr, if_false, hne,
          ne_eq, not_false_eq_true, if_true]⟩
  | A_SYMBOL s => exact ⟨_, rfl⟩
  | A_POINTER => exact ⟨_, rfl⟩

/-- C4, as amended: Append accepts a single number exactly when it equals an
integer from -128 to 255.  Such a value `n` is stored as one byte, `n` modulo
256, with no report, the read offset untouched (the buffer block being
allocated and a needed growth granted); any other number (below -128, above
255, or not integral) yields one error report and leaves the object
unchanged. -/
theorem append_single_number (heap : Nat → Bool) (x : t_binfile) (v : ℚ) :
    (∀ n : Int, v = n → -128 ≤ n → n ≤ 255 → block_ok x → x.x_wr_offset ≤ x.x_buf_length →
      (x.x_wr_offset = x.x_buf_length → heap (x.x_buf_length + ALLOC_BLOCK_SIZE) = true) →
      ∃ y, binfile_float heap x v = some (y, []) ∧ y.x_wr_offset = x.x_wr_offset + 1 ∧
        y.x_rd_offset = x.x_rd_offset ∧ written y = written x ++ [int_to_char n]) ∧
    ((¬ ∃ n : Int, v = n ∧ -128 ≤ n ∧ n ≤ 255) →
      ∃ r, binfile_float heap x v = some (x, [Event.error r])) := by
  constructor
  · intro n hvn h1 h2 hx hw hheap
    obtain ⟨b, hb, hlen⟩ := hx
    obtain ⟨y, c, hy, hyb, _, hyw, _, hyr, _, _, hyt⟩ :=
      add_body_int heap 0 n ⟨h1, h2⟩ x b hb hlen hw hheap
    refine ⟨y, ?_, hyw, hyr, ?_⟩
    · subst hvn
      have hy2 : binfile_add_body heap 0 (t_atom.A_FLOAT (n : ℚ)) x = .next y := hy
      simp only [binfile_float, binfile_add, binfile_add_loop, hy2]
    · simp only [written, hyb, hb, Option.getD_some, hyt]
  · intro hno
    have hrej : accepted (.A_FLOAT v) = false := by
      cases hacc : accepted (.A_FLOAT v) with
      | false => rfl
      | true => exact absurd ((accepted_float_iff v).mp hacc) hno
    obtain ⟨r, hr⟩ := add_body_rejected heap 0 (.A_FLOAT v) x hrej
    exact ⟨r, by simp only [binfile_float, binfile_add, binfile_add_loop, hr]⟩

/-- Witness of C4 as amended: the value 200 on a buffer of capacity 2. -/
theorem append_single_number_witness :
    ∃ y, binfile_float (fun _ => false)
        { x_fP := none, x_buf := some [7, 7], x_buf_length := 2,
          x_rd_offset := 0, x_wr_offset := 0 } ((200 : Int) : ℚ) = some (y, []) ∧
      y.x_wr_offset = 0 + 1 ∧ y.x_rd_offset = 0 ∧
      written y = written { x_fP := none, x_buf := some [7, 7], x_buf_length := 2,
                            x_rd_offset := 0, x_wr_offset := 0 } ++ [int_to_char 200] :=
  (append_single_number (fun _ => false)
    { x_fP := none, x_buf := some [7, 7], x_buf_length := 2,
      x_rd_offset := 0, x_wr_offset := 0 } ((200 : Int) : ℚ)).1 200 rfl (by decide) (by decide)
    ⟨[7, 7], rfl, by decide⟩ (by decide) (by decide)

/-- Counterexample to C4 as stated: the negative number -1 is accepted.  No
error is reported, the byte 255 is stored and the write offset advances. -/
theorem append_minus_one_is_stored :
    binfile_float (fun _ => false)
        { x_fP := none, x_buf := some [7, 7], x_buf_length := 2,
          x_rd_offset := 0, x_wr_offset := 0 } (-1) =
      some ({ x_fP := none, x_buf := some [255, 7], x_buf_length := 2,
              x_rd_offset := 0, x_wr_offset := 1 }, []) := by
  decide

/-! ### What `binfile_add` never touches -/

theorem store_some (z y : t_binfile) (j : Int) (h : store z j = some y) :
    y.x_rd_offset = z.x_rd_offset ∧ y.x_wr_offset = z.x_wr_offset + 1 ∧
      y.x_buf_length = z.x_buf_length ∧ y.x_fP = z.x_fP := by
  unfold store at h
  split at h
  · split at h
    · cases h
      exact ⟨rfl, rfl, rfl, rfl⟩
    · cases h
  · cases h

theorem add_body_next (heap : Nat → Bool) (i : Nat) (a : t_atom) (x y : t_binfile)
    (h : binfile_add_body heap i a x = .next y) :
    y.x_rd_offset = x.x_rd_offset ∧ y.x_wr_offset = x.x_wr_offset + 1 ∧ y.x_fP = x.x_fP ∧
      ((x.x_wr_offset < x.x_buf_length ∧ y.x_buf_length = x.x_buf_length) ∨
       (x.x_buf_length ≤ x.x_wr_offset ∧
          y.x_buf_length = x.x_buf_length + ALLOC_BLOCK_SIZE)) := by
  cases a with
  | A_FLOAT f =>
    simp only [binfile_add_body] at h
    split_ifs at h with h1 h2 h3
    · split at h
      · cases h
      · split at h
        · rename_i hst
          cases h
          obtain ⟨e1, e2, e3, e4⟩ := store_some _ _ _ hst
          exact ⟨e1, e2, e4, Or.inr ⟨h3, e3⟩⟩
        · cases h
    · split at h
      · rename_i hst
        cases h
        obtain ⟨e1, e2, e3, e4⟩ := store_some _ _ _ hst
        exact ⟨e1, e2, e4, Or.inl ⟨by omega, e3⟩⟩
      · cases h
  | A_SYMBOL s => simp [binfile_add_body] at h
  | A_POINTER => simp [binfile_add_body] at h

theorem add_body_ret (heap : Nat → Bool) (i : Nat) (a : t_atom) (x y : t_binfile)
    (out : List Event) (h : binfile_add_body heap i a x = .ret y out) :
    y.x_rd_offset = x.x_rd_offset ∧ y.x_wr_offset = x.x_wr_offset ∧
      y.x_buf_length = x.x_buf_length ∧ y.x_fP = x.x_fP := by
  cases a with
  | A_FLOAT f =>
    simp only [binfile_add_body] at h
    split_ifs at h with h1 h2 h3
    · cases h; exact ⟨rfl, rfl, rfl, rfl⟩
    · cases h; exact ⟨rfl, rfl, rfl, rfl⟩
    · split at h
      · cases h; exact ⟨rfl, rfl, rfl, rfl⟩
      · split at h <;> cases h
    · split at h <;> cases h
  | A_SYMBOL s =>
    simp only [binfile_add_body] at h
    cases h; exact ⟨rfl, rfl, rfl, rfl⟩
  | A_POINTER =>
    simp only [binfile_add_body] at h
    cases h; exact ⟨rfl, rfl, rfl, rfl⟩

/-- Whatever the atoms and the allocator, a call of `binfile_add` that returns
leaves the read offset and the stream alone, never lowers the write offset or
the capacity, and keeps the write offset within the capacity. -/
theorem add_loop_frame (heap : Nat → Bool) (argv : List t_atom) :
    ∀ (i : Nat) (x y : t_binfile) (out : List Event),
      binfile_add_loop heap i argv x = some (y, out) →
      y.x_rd_offset = x.x_rd_offset ∧ y.x_fP = x.x_fP ∧ x.x_wr_offset ≤ y.x_wr_offset ∧
        x.x_buf_length ≤ y.x_buf_length ∧
        (x.x_wr_offset ≤ x.x_buf_length → y.x_wr_offset ≤ y.x_buf_length) := by
  induction argv with
  | nil =>
    intro i x y out h
    simp only [binfile_add_loop, Option.some.injEq, Prod.mk.injEq] at h
    obtain ⟨rfl, _⟩ := h
    exact ⟨rfl, rfl, le_refl _, le_refl _, id⟩
  | cons a t ih =>
    intro i x y out h
    simp only [binfile_add_loop] at h
    split at h
    · rename_i z hz
      obtain ⟨e1, e2, e3, e4⟩ := add_body_next heap i a x z hz
      obtain ⟨f1, f2, f3, f4, f5⟩ := ih (i + 1) z y out h
      refine ⟨by rw [f1, e1], by rw [f2, e3], by omega, ?_, ?_⟩
      · rcases e4 with ⟨_, e⟩ | ⟨_, e⟩ <;> omega
      · intro hw
        apply f5
        rcases e4 with ⟨_, e⟩ | ⟨_, e⟩ <;> unfold ALLOC_BLOCK_SIZE at * <;> omega
    · rename_i z o hz
      simp only [Option.some.injEq, Prod.mk.injEq] at h
      obtain ⟨rfl, _⟩ := h
      obtain ⟨e1, e2, e3, e4⟩ := add_body_ret heap i a x z o hz
      exact ⟨e1, e4, by omega, by omega, by omega⟩
    · cases h

/-! ### A rejected element -/

theorem add_loop_rejected_cons (heap : Nat → Bool) (i : Nat) (a : t_atom) (post : List t_atom)
    (x : t_binfile) (ha : accepted a = false) :
    ∃ r, binfile_add_loop heap i (a :: post) x = some (x, [Event.error r]) := by
  obtain ⟨r, hr⟩ := add_body_rejected heap i a x ha
  exact ⟨r, by simp only [binfile_add_loop, hr]⟩

/-- The loop stops at a rejected atom in the state that the atoms before it
have produced. -/
theorem add_loop_cut (heap : Nat → Bool) (a : t_atom) (post : List t_atom)
    (ha : accepted a = false) (pre : List t_atom) :
    ∀ (i : Nat) (x : t_binfile),
      (binfile_add_loop heap i (pre ++ a :: post) x).map Prod.fst =
        (binfile_add_loop heap i pre x).map Prod.fst := by
  induction pre with
  | nil =>
    intro i x
    obtain ⟨r, hr⟩ := add_loop_rejected_cons heap i a post x ha
    rw [List.nil_append, hr]
    rfl
  | cons p t ih =>
    intro i x
    show (binfile_add_loop heap i (p :: (t ++ a :: post)) x).map Prod.fst = _
    simp only [binfile_add_loop]
    cases binfile_add_body heap i p x with
    | next y => exact ih (i + 1) y
    | ret y out => rfl
    | undefined => rfl

theorem accepted_list_eq (pre : List t_atom) (hpre : ∀ p ∈ pre, accepted p = true) :
    pre = (pre.map atom_getint).map int_atom ∧
      ∀ v ∈ pre.map atom_getint, -128 ≤ v ∧ v ≤ 255 := by
  constructor
  · rw [List.map_map]
    conv_lhs => rw [← List.map_id pre]
    exact List.map_congr_left (fun p hp => (accepted_eq_int_atom p (hpre p hp)).1)
  · intro v hv
    obtain ⟨p, hp, rfl⟩ := List.mem_map.mp hv
    exact (accepted_eq_int_atom p (hpre p hp)).2

theorem one_half_rejected : accepted (t_atom.A_FLOAT (1 / 2)) = false := by
  cases h : accepted (t_atom.A_FLOAT (1 / 2)) with
  | false => rfl
  | true =>
    obtain ⟨n, hn, _, _⟩ := (accepted_float_iff _).mp h
    exfalso
    have h2 : ((2 * n : Int) : ℚ) = ((1 : Int) : ℚ) := by
      push_cast
      rw [← hn]
      norm_num
    have h3 : 2 * n = 1 := by exact_mod_cast h2
    omega

/-- C5: when the first atom that Append rejects (not a float, not integral, or
outside the range the code accepts) stands at index `k`, behind the accepted
atoms `pre`, the object ends exactly as after appending `pre` alone; the read
offset is unchanged; and, the block being allocated and growth granted, the
call returns with one error report, the write offset advanced by `k` and the
`k` bytes of `pre` appended, nothing of the rejected atom or of those after
it. -/
theorem append_stops_at_first_rejected (heap : Nat → Bool) (x : t_binfile)
    (pre : List t_atom) (a : t_atom) (post : List t_atom)
    (hpre : ∀ p ∈ pre, accepted p = true) (ha : accepted a = false) :
    (binfile_add heap x (pre ++ a :: post)).map Prod.fst =
        (binfile_add heap x pre).map Prod.fst ∧
    (∀ y out, binfile_add heap x (pre ++ a :: post) = some (y, out) →
      y.x_rd_offset = x.x_rd_offset) ∧
    (block_ok x → x.x_wr_offset ≤ x.x_buf_length →
      (∀ k, x.x_buf_length < k → k ≤ grown x.x_buf_length (x.x_wr_offset + pre.length) →
        heap k = true) →
      ∃ y r, binfile_add heap x (pre ++ a :: post) = some (y, [Event.error r]) ∧
        binfile_add heap x pre = some (y, []) ∧
        y.x_wr_offset = x.x_wr_offset + pre.length ∧
        written y = written x ++ pre.map (fun p => int_to_char (atom_getint p))) := by
  refine ⟨add_loop_cut heap a post ha pre 0 x,
    fun y out h => (add_loop_frame heap _ 0 x y out h).1, ?_⟩
  intro hx hw hheap
  obtain ⟨b, hb, hlen⟩ := hx
  obtain ⟨hpe, hrange⟩ := accepted_list_eq pre hpre
  have hk : (pre.map atom_getint).length = pre.length := List.length_map _ _
  obtain ⟨y, c, hy, hyb, _, hyw, _, _, _, _, hyt⟩ :=
    add_loop_ints_then heap (pre.map atom_getint) hrange 0 x b hb hlen hw
      (by rw [hk]; exact hheap)
  obtain ⟨r, hr⟩ := add_loop_rejected_cons heap (0 + (pre.map atom_getint).length) a post y ha
  refine ⟨y, r, ?_, ?_, ?_, ?_⟩
  · have h := hy (a :: post)
    rw [← hpe] at h
    simp only [binfile_add, h, hr]
  · have h := hy []
    rw [← hpe, List.append_nil] at h
    simp only [binfile_add, h, binfile_add_loop]
  · rw [hyw, hk]
  · simp only [written, hyb, hb, Option.getD_some, hyt, List.map_map]
    rfl

/-- Witness of C5: the third atom of five is not integral. -/
theorem append_stops_at_first_rejected_witness :
    (binfile_add (fun _ => true)
        { x_fP := none, x_buf := some [7, 7, 7, 7], x_buf_length := 4,
          x_rd_offset := 0, x_wr_offset := 1 }
        ([int_atom 1, int_atom 2] ++ t_atom.A_FLOAT (1 / 2) :: [int_atom 3, int_atom 4])).map
          Prod.fst =
      some { x_fP := none, x_buf := some [7, 1, 2, 7], x_buf_length := 4,
             x_rd_offset := 0, x_wr_offset := 3 } := by
  have h := (append_stops_at_first_rejected (fun _ => true)
    { x_fP := none, x_buf := some [7, 7, 7, 7], x_buf_length := 4,
      x_rd_offset := 0, x_wr_offset := 1 }
    [int_atom 1, int_atom 2] (t_atom.A_FLOAT (1 / 2)) [int_atom 3, int_atom 4]
    (by decide) one_half_rejected).1
  rw [h]
  decide

/-! ### Growth -/

theorem grown_le (c t : Nat) (h : t ≤ c) : grown c t = c := by
  simp [grown, h]

theorem grown_gt (c t : Nat) (h : c < t) :
    ∃ k, 1 ≤ k ∧ grown c t = c + k * 65536 ∧ t ≤ c + k * 65536 ∧
      ∀ j, t ≤ c + j * 65536 → k ≤ j := by
  refine ⟨(t - c + 65535) / 65536, ?_, ?_, ?_, ?_⟩
  · omega
  · unfold grown ALLOC_BLOCK_SIZE
    split_ifs
    · omega
    · rfl
  · omega
  · intro j hj
    omega

/-- C7: growth policy.  A buffer with write offset `w ≤ c`, `c` its
capacity, receives `n` valid bytes in one call, every growth request being
granted.  The call returns with all bytes appended behind those already
written; the capacity is `c` when `w + n ≤ c` and otherwise `c + k * 65536`
for the least `k` (which is at least 1) with `w + n ≤ c + k * 65536`; and at
each byte the capacity either stays, or grows by exactly 65536 when the write
offset has reached it at the moment that byte is to be written. -/
theorem growth_policy (heap : Nat → Bool) (hheap : ∀ k, heap k = true) (x : t_binfile)
    (hx : block_ok x) (hw : x.x_wr_offset ≤ x.x_buf_length) (vs : List Int)
    (hvs : ∀ v ∈ vs, 0 ≤ v ∧ v ≤ 255) :
    ∃ y, binfile_add heap x (vs.map int_atom) = some (y, []) ∧
      y.x_wr_offset = x.x_wr_offset + vs.length ∧
      written y = written x ++ vs.map int_to_char ∧
      (x.x_wr_offset + vs.length ≤ x.x_buf_length → y.x_buf_length = x.x_buf_length) ∧
      (x.x_buf_length < x.x_wr_offset + vs.length →
        ∃ k, 1 ≤ k ∧ y.x_buf_length = x.x_buf_length + k * 65536 ∧
          x.x_wr_offset + vs.length ≤ x.x_buf_length + k * 65536 ∧
          ∀ j, x.x_wr_offset + vs.length ≤ x.x_buf_length + j * 65536 → k ≤ j) ∧
      (∀ vs1 v vs2, vs = vs1 ++ v :: vs2 →
        ∃ y1 y2, binfile_add heap x (vs1.map int_atom) = some (y1, []) ∧
          binfile_add heap x ((vs1 ++ [v]).map int_atom) = some (y2, []) ∧
          y1.x_wr_offset = x.x_wr_offset + vs1.length ∧
          y2.x_buf_length =
            (if y1.x_wr_offset = y1.x_buf_length then y1.x_buf_length + 65536
             else y1.x_buf_length)) := by
  obtain ⟨b, hb, hlen⟩ := hx
  have hr : ∀ v ∈ vs, -128 ≤ v ∧ v ≤ 255 :=
    fun v hv => ⟨by have := (hvs v hv).1; omega, (hvs v hv).2⟩
  obtain ⟨y, c, hy, hyb, _, hyw, _, _, _, hycap, hyt⟩ :=
    add_loop_ints heap vs hr 0 x b hb hlen hw (fun k _ _ => hheap k)
  refine ⟨y, hy, hyw, ?_, ?_, ?_, ?_⟩
  · simp only [written, hyb, hb, Option.getD_some, hyt]
  · intro hfit
    rw [hycap]
    exact grown_le _ _ hfit
  · intro hover
    rw [hycap]
    exact grown_gt _ _ hover
  · intro vs1 v vs2 hsplit
    have hr1 : ∀ u ∈ vs1, -128 ≤ u ∧ u ≤ 255 :=
      fun u hu => hr u (by rw [hsplit]; exact List.mem_append_left _ hu)
    have hrv : -128 ≤ v ∧ v ≤ 255 :=
      hr v (by rw [hsplit]; exact List.mem_append_right _ (List.mem_cons_self v vs2))
    obtain ⟨y1, c1, h1, h1b, h1l, h1w, h1c, _, _, _, _⟩ :=
      add_loop_ints_then heap vs1 hr1 0 x b hb hlen hw (fun k _ _ => hheap k)
    obtain ⟨y2, c2, h2, _, _, _, _, _, _, h2cap, _⟩ :=
      add_body_int heap (0 + vs1.length) v hrv y1 c1 h1b h1l h1c (fun _ => hheap _)
    refine ⟨y1, y2, ?_, ?_, h1w, h2cap⟩
    · have h := h1 []
      rw [List.append_nil] at h
      simp only [binfile_add, h, binfile_add_loop]
    · have h := h1 [int_atom v]
      simp only [binfile_add, List.map_append, List.map_cons, List.map_nil, h,
        binfile_add_loop, h2]

/-- Witness of C7: 65537 bytes appended to an empty buffer of capacity
65536 end with capacity 131072 and all bytes in order. -/
theorem growth_policy_witness :
    ∃ y, binfile_add (fun _ => true) unit_buffer (unit_and_one.map int_atom) = some (y, []) ∧
      y.x_wr_offset = 65537 ∧ y.x_buf_length = 131072 ∧
      written y = unit_and_one.map int_to_char := by
  have hl : unit_and_one.length = 65537 := by
    unfold unit_and_one
    rw [List.length_append, List.length_replicate, List.length_singleton]
  have hb : unit_buffer.x_buf_length ≤ unit_block.length := by
    simp only [unit_block, List.length_replicate]
    exact le_refl _
  have hv : ∀ v ∈ unit_and_one, 0 ≤ v ∧ v ≤ 255 := by
    intro v hv
    rcases List.mem_append.mp hv with h | h
    · rw [List.eq_of_mem_replicate h]; decide
    · rw [List.mem_singleton.mp h]; decide
  obtain ⟨y, h1, h2, h3, _, h5, _⟩ := growth_policy (fun _ => true) (fun _ => rfl)
    unit_buffer ⟨unit_block, rfl, hb⟩ (Nat.zero_le _) unit_and_one hv
  rw [hl] at h2 h5
  have hw0 : unit_buffer.x_wr_offset = 0 := rfl
  have hc0 : unit_buffer.x_buf_length = 65536 := rfl
  rw [hw0] at h2
  rw [hw0, hc0] at h5
  refine ⟨y, h1, by omega, ?_, ?_⟩
  · obtain ⟨k, hk1, hk2, _, hk4⟩ := h5 (by omega)
    have hk : k ≤ 1 := hk4 1 (by omega)
    omega
  · rw [h3]
    simp only [written, hw0, List.take_zero, List.nil_append]

/-! ### Files -/

/-- What a call of `binfile_write` that returns has done: the path was opened,
the file holds the first `bytes_written` bytes of the written region, and the
object only lost its stream. -/
theorem binfile_write_some (env : Env) (files : Files) (x x1 : t_binfile) (path : String)
    (files1 : Files) (out : List Event)
    (h : binfile_write env files x path = some (x1, files1, out)) :
    ∃ bytes_written, bytes_written ≤ x.x_wr_offset ∧
      (written x).length = x.x_wr_offset ∧
      files1 (tryPath path) = some ((written x).take bytes_written) ∧
      (∀ q, q ≠ tryPath path → files1 q = files q) ∧
      x1 = { x with x_fP := none } ∧
      out = [if bytes_written ≠ x.x_wr_offset then
               Event.post (.bytes_written_differ bytes_written x.x_wr_offset)
             else Event.post (.wrote_bytes bytes_written path),
             Event.fclose (tryPath path)] := by
  unfold binfile_write binfile_open_path at h
  by_cases hwr : env.writable (tryPath path) = true
  · simp only [fopen, hwr, if_true] at h
    by_cases hc : x.x_wr_offset = 0
    · simp only [fwrite, hc, if_true, Option.some.injEq, Prod.mk.injEq] at h
      obtain ⟨h1, h2, h3⟩ := h
      refine ⟨0, Nat.zero_le _, by simp [written, hc], ?_, ?_, by rw [hc, h1], ?_⟩
      · rw [← h2]; simp
      · intro q hq; rw [← h2]; simp [Function.update, hq]
      · rw [← h3]; simp [hc]
    · simp only [fwrite, hc, if_false] at h
      cases hb : x.x_buf with
      | none => simp [hb] at h
      | some b =>
        simp only [hb] at h
        by_cases hle : x.x_wr_offset ≤ b.length
        · simp only [hle, if_true, Option.some.injEq, Prod.mk.injEq, Function.update_same,
            Option.getD_some, List.nil_append] at h
          obtain ⟨h1, h2, h3⟩ := h
          refine ⟨min env.xfer x.x_wr_offset, Nat.min_le_right _ _, ?_, ?_, ?_, h1.symm, h3.symm⟩
          · simp [written, hb, hle]
          · rw [← h2]
            simp only [Function.update_idem, Function.update_same, written, hb,
              Option.getD_some, List.take_take]
            congr 2
            omega
          · intro q hq; rw [← h2]; simp [Function.update, hq]
        · simp [hle] at h
  · simp only [fopen, hwr] at h
    simp at h

/-- Load of a file that opens, is not empty and finds its block granted. -/
theorem binfile_read_loaded (env : Env) (files : Files) (x : t_binfile) (path : String)
    (data : List byte) (hfile : files (tryPath path) = some data)
    (hne : data.length ≠ 0) (halloc : env.heap data.length = true) :
    (binfile_read env files x path).1 =
      { x_fP := none,
        x_buf := some (data.take (min env.xfer data.length) ++
          (List.replicate data.length (0 : byte)).drop (min env.xfer data.length)),
        x_buf_length := min env.xfer data.length,
        x_wr_offset := min env.xfer data.length,
        x_rd_offset := 0 } := by
  simp only [binfile_read, binfile_open_path, fopen, hfile, Option.isSome_some, if_true,
    Option.getD_some, hne, if_false, getbytes, halloc]

/-- Load of a file that opens and is empty. -/
theorem binfile_read_empty (env : Env) (files : Files) (x : t_binfile) (path : String)
    (hfile : files (tryPath path) = some []) :
    binfile_read env files x path =
      ({ x with x_fP := some (tryPath path) }, []) := by
  simp only [binfile_read, binfile_open_path, fopen, hfile, Option.isSome_some, if_true,
    Option.getD_some, List.length_nil]

/-- Load of a file whose content is `data` into a buffer with both offsets 0,
the block granted and the read complete. -/
theorem binfile_read_back (env : Env) (files : Files) (fresh : t_binfile) (path : String)
    (data : List byte) (hfile : files (tryPath path) = some data)
    (hfresh : fresh.x_wr_offset = 0 ∧ fresh.x_rd_offset = 0)
    (halloc : env.heap data.length = true) (hxfer : data.length ≤ env.xfer) :
    written (binfile_read env files fresh path).1 = data ∧
    (binfile_read env files fresh path).1.x_wr_offset = data.length ∧
    (binfile_read env files fresh path).1.x_rd_offset = 0 := by
  by_cases hz : data.length = 0
  · have hnil : data = [] := List.length_eq_zero.mp hz
    subst hnil
    rw [binfile_read_empty env files fresh path hfile]
    refine ⟨?_, hfresh.1, hfresh.2⟩
    simp [written, hfresh.1]
  · have hmin : min env.xfer data.length = data.length := Nat.min_eq_right hxfer
    rw [binfile_read_loaded env files fresh path data hfile hz halloc, hmin]
    refine ⟨?_, rfl, rfl⟩
    simp [written]

/-- C6: round trip.  A Save that returns and reports all bytes written has
left, under the path it opened, a file whose content is exactly the written
region `storage[0..write_offset)`; the object itself is unchanged but for its
closed stream.  A Load of the same path into a fresh buffer (both offsets 0),
its block granted and the read complete, gives a buffer whose written region is
that byte sequence, whose write offset is the file length and whose read
offset is 0; this includes the empty written region. -/
theorem save_load_round_trip (env1 env2 : Env) (files files1 : Files) (x x1 fresh : t_binfile)
    (path : String) (out : List Event)
    (hsave : binfile_write env1 files x path = some (x1, files1, out))
    (hfull : Event.post (.wrote_bytes x.x_wr_offset path) ∈ out)
    (hfresh : fresh.x_wr_offset = 0 ∧ fresh.x_rd_offset = 0)
    (halloc : env2.heap x.x_wr_offset = true) (hxfer : x.x_wr_offset ≤ env2.xfer) :
    files1 (tryPath path) = some (written x) ∧
    (written x).length = x.x_wr_offset ∧
    x1 = { x with x_fP := none } ∧
    written (binfile_read env2 files1 fresh path).1 = written x ∧
    (binfile_read env2 files1 fresh path).1.x_wr_offset = (written x).length ∧
    (binfile_read env2 files1 fresh path).1.x_rd_offset = 0 := by
  obtain ⟨bw, hbw, hlen, hfile, _, hx1, hout⟩ :=
    binfile_write_some env1 files x x1 path files1 out hsave
  have hbweq : bw = x.x_wr_offset := by
    rw [hout] at hfull
    by_cases hd : bw = x.x_wr_offset
    · exact hd
    · simp [hd] at hfull
  rw [hbweq, ← hlen, List.take_length] at hfile
  refine ⟨hfile, hlen, hx1, ?_⟩
  exact binfile_read_back env2 files1 fresh path (written x) hfile hfresh
    (by rw [hlen]; exact halloc) (by rw [hlen]; exact hxfer)

/-- Witness of C6: a buffer with three written bytes of four is saved, and the
file is loaded into an empty buffer. -/
theorem save_load_round_trip_witness :
    ∃ x1 files1 out,
      binfile_write ⟨fun _ => true, fun _ => true, 100⟩ (fun _ => none)
        { x_fP := none, x_buf := some [10, 20, 30, 40], x_buf_length := 4,
          x_rd_offset := 1, x_wr_offset := 3 } "a.bin" = some (x1, files1, out) ∧
      files1 "a.bin" = some [10, 20, 30] ∧
      written (binfile_read ⟨fun _ => true, fun _ => true, 100⟩ files1
        { x_fP := none, x_buf := some [0, 0], x_buf_length := 2,
          x_rd_offset := 0, x_wr_offset := 0 } "a.bin").1 = [10, 20, 30] := by
  refine ⟨_, _, _, rfl, ?_⟩
  have h := save_load_round_trip ⟨fun _ => true, fun _ => true, 100⟩
    ⟨fun _ => true, fun _ => true, 100⟩ (fun _ => none) _
    { x_fP := none, x_buf := some [10, 20, 30, 40], x_buf_length := 4,
      x_rd_offset := 1, x_wr_offset := 3 } _
    { x_fP := none, x_buf := some [0, 0], x_buf_length := 2,
      x_rd_offset := 0, x_wr_offset := 0 }
    "a.bin" _ rfl (by decide) ⟨rfl, rfl⟩ rfl (by decide)
  exact ⟨h.1, h.2.2.2.1⟩

/-! ### The cursor invariant -/

theorem binfile_new_paths_no_symbol (env : Env) (files : Files) (argv : List t_atom)
    (h : ∀ a ∈ argv, ∀ s, a ≠ t_atom.A_SYMBOL s) (acc : t_binfile × List Event) :
    binfile_new_paths env files argv acc = acc := by
  induction argv with
  | nil => rfl
  | cons a t ih =>
    have ht : ∀ a ∈ t, ∀ s, a ≠ t_atom.A_SYMBOL s := fun b hb => h b (List.mem_cons_of_mem a hb)
    cases a with
    | A_FLOAT f => simp only [binfile_new_paths, ih ht]
    | A_SYMBOL s => exact absurd rfl (h _ (List.mem_cons_self _ t) s)
    | A_POINTER => simp only [binfile_new_paths, ih ht]

theorem binfile_new_length_eq (x : t_binfile) (argv : List t_atom) :
    binfile_new_length x argv =
      match first_float argv with
      | none => some x
      | some f => (float_to_size_t f).map (fun n => { x with x_buf_length := n }) := by
  induction argv with
  | nil => rfl
  | cons a t ih =>
    cases a with
    | A_FLOAT f => rfl
    | A_SYMBOL s => simp only [binfile_new_length, first_float, ih]
    | A_POINTER => simp only [binfile_new_length, first_float, ih]

theorem binfile_new_length_some (x y : t_binfile) (argv : List t_atom)
    (h : binfile_new_length x argv = some y) :
    y.x_rd_offset = x.x_rd_offset ∧ y.x_wr_offset = x.x_wr_offset := by
  rw [binfile_new_length_eq] at h
  split at h
  · cases h; exact ⟨rfl, rfl⟩
  · rename_i f _
    cases hf : float_to_size_t f with
    | none => simp [hf] at h
    | some n =>
      simp only [hf, Option.map_some', Option.some.injEq] at h
      subst h
      exact ⟨rfl, rfl⟩

theorem float_to_size_t_isSome (f : ℚ) (h0 : 0 ≤ f) (h1 : f < 2 ^ 64) :
    ∃ n, float_to_size_t f = some n := by
  have hfl : float_to_int f = ⌊f⌋ := by simp [float_to_int, h0]
  have hnn : 0 ≤ float_to_int f := by rw [hfl]; exact Int.floor_nonneg.mpr h0
  have hlt : float_to_int f < 2 ^ 64 := by
    rw [hfl]
    apply Int.floor_lt.mpr
    push_cast
    exact h1
  exact ⟨(float_to_int f).toNat, by simp only [float_to_size_t, hnn, hlt, and_self, if_true]⟩

theorem binfile_new_no_symbol (env : Env) (files : Files) (argv : List t_atom)
    (h : ∀ a ∈ argv, ∀ s, a ≠ t_atom.A_SYMBOL s) (x : t_binfile) (out : List Event)
    (hnew : binfile_new env files argv = some (x, out)) :
    x.x_rd_offset = 0 ∧ x.x_wr_offset = 0 := by
  simp only [binfile_new, binfile_new_paths_no_symbol env files argv h] at hnew
  split at hnew
  · cases hnew
  · rename_i x2 hx2
    obtain ⟨e1, e2⟩ := binfile_new_length_some _ _ _ hx2
    split at hnew
    · simp only [Option.some.injEq, Prod.mk.injEq] at hnew
      obtain ⟨rfl, _⟩ := hnew
      exact ⟨e1, e2⟩
    · simp only [Option.some.injEq, Prod.mk.injEq] at hnew
      obtain ⟨rfl, _⟩ := hnew
      exact ⟨e1, e2⟩

theorem binfile_new_returns (env : Env) (files : Files) (argv : List t_atom)
    (hcap : ∀ f, first_float argv = some f → 0 ≤ f ∧ f < 2 ^ 64) :
    ∃ x out, binfile_new env files argv = some (x, out) := by
  have hlen : ∀ x1 : t_binfile, ∃ x2, binfile_new_length x1 argv = some x2 := by
    intro x1
    rw [binfile_new_length_eq]
    cases hf : first_float argv with
    | none => exact ⟨x1, rfl⟩
    | some f =>
      obtain ⟨n, hn⟩ := float_to_size_t_isSome f (hcap f hf).1 (hcap f hf).2
      exact ⟨{ x1 with x_buf_length := n }, by simp only [hn, Option.map_some']⟩
  simp only [binfile_new]
  obtain ⟨x2, hx2⟩ := hlen (binfile_new_paths env files argv
      ({ x_fP := none, x_buf := none, x_buf_length := ALLOC_BLOCK_SIZE,
         x_rd_offset := 0, x_wr_offset := 0 }, [])).1
  simp only [hx2]
  cases getbytes env.heap x2.x_buf_length with
  | none => exact ⟨_, _, rfl⟩
  | some b => exact ⟨_, _, rfl⟩

theorem binfile_bang_cursors (x y : t_binfile) (out : List Event) (hx : cursors_ok x)
    (h : binfile_bang x = some (y, out)) : cursors_ok y := by
  unfold binfile_bang at h
  by_cases hlt : x.x_rd_offset < x.x_wr_offset
  · rw [if_pos hlt] at h
    split at h
    · cases h
      exact ⟨hlt, hx.2⟩
    · cases h
  · rw [if_neg hlt] at h
    cases h
    exact hx

theorem binfile_add_cursors (heap : Nat → Bool) (x y : t_binfile) (argv : List t_atom)
    (out : List Event) (hx : cursors_ok x) (h : binfile_add heap x argv = some (y, out)) :
    cursors_ok y := by
  obtain ⟨e1, _, e3, _, e5⟩ := add_loop_frame heap argv 0 x y out h
  exact ⟨by rw [e1]; exact le_trans hx.1 e3, e5 hx.2⟩

theorem binfile_read_cursors (env : Env) (files : Files) (x : t_binfile) (path : String)
    (hx : cursors_ok x) (hload : load_refused env files (.read path) = false) :
    cursors_ok (binfile_read env files x path).1 := by
  cases hf : files (tryPath path) with
  | none =>
    simp only [binfile_read, binfile_open_path, fopen, hf, Option.isSome_none]
    exact hx
  | some data =>
    by_cases hz : data.length = 0
    · have hnil : data = [] := List.length_eq_zero.mp hz
      subst hnil
      rw [binfile_read_empty env files x path hf]
      exact hx
    · have halloc : env.heap data.length = true := by
        simp only [load_refused, hf, hz, ne_eq, not_false_eq_true, decide_True, Bool.true_and,
          Bool.not_eq_false'] at hload
        exact hload
      rw [binfile_read_loaded env files x path data hf hz halloc]
      exact ⟨Nat.zero_le _, le_refl _⟩

/-- Every message that returns keeps the cursor invariant, a Load whose
allocation is refused excepted. -/
theorem dispatch_cursors (env : Env) (w v : t_binfile × Files) (m : Method) (out : List Event)
    (hw : cursors_ok w.1) (hload : load_refused env w.2 m = false)
    (h : dispatch env w m = some (v, out)) : cursors_ok v.1 := by
  cases m with
  | bang =>
    simp only [dispatch, Option.map_eq_some', Prod.mk.injEq] at h
    obtain ⟨r, hr, rfl, _⟩ := h
    exact binfile_bang_cursors w.1 r.1 r.2 hw hr
  | float val =>
    simp only [dispatch, Option.map_eq_some', Prod.mk.injEq] at h
    obtain ⟨r, hr, rfl, _⟩ := h
    exact binfile_add_cursors env.heap w.1 r.1 _ r.2 hw hr
  | list argv =>
    simp only [dispatch, Option.map_eq_some', Prod.mk.injEq] at h
    obtain ⟨r, hr, rfl, _⟩ := h
    exact binfile_add_cursors env.heap w.1 r.1 argv r.2 hw hr
  | read path =>
    simp only [dispatch, Option.some.injEq, Prod.mk.injEq] at h
    obtain ⟨rfl, _⟩ := h
    exact binfile_read_cursors env w.2 w.1 path hw hload
  | write path =>
    simp only [dispatch, Option.map_eq_some', Prod.mk.injEq] at h
    obtain ⟨r, hr, rfl, _⟩ := h
    obtain ⟨_, _, _, _, _, hx1, _⟩ := binfile_write_some env w.2 w.1 r.1 path r.2.1 r.2.2 hr
    rw [hx1]
    exact hw
  | add argv =>
    simp only [dispatch, Option.map_eq_some', Prod.mk.injEq] at h
    obtain ⟨r, hr, rfl, _⟩ := h
    exact binfile_add_cursors env.heap w.1 r.1 argv r.2 hw hr
  | set argv =>
    simp only [dispatch, Option.map_eq_some', Prod.mk.injEq] at h
    obtain ⟨r, hr, rfl, _⟩ := h
    exact binfile_add_cursors env.heap (binfile_clear w.1) r.1 argv r.2
      ⟨Nat.zero_le _, Nat.zero_le _⟩ hr
  | clear =>
    simp only [dispatch, Option.some.injEq, Prod.mk.injEq] at h
    obtain ⟨rfl, _⟩ := h
    exact ⟨Nat.zero_le _, Nat.zero_le _⟩
  | rewind =>
    simp only [dispatch, Option.some.injEq, Prod.mk.injEq] at h
    obtain ⟨rfl, _⟩ := h
    exact ⟨Nat.zero_le _, hw.2⟩
  | info =>
    simp only [dispatch, Option.map_eq_some', Prod.mk.injEq] at h
    obtain ⟨r, hr, rfl, _⟩ := h
    unfold binfile_info at hr
    split at hr
    · simp only [Option.some.injEq] at hr
      rw [← hr]
      exact hw
    · cases hr

/-- C2: the predicate `read_offset ≤ write_offset ≤ capacity` (offsets are
natural numbers, so `0 ≤ read_offset` is built in).  It holds after every
construction without a path argument, and such a construction returns when the
first number of its argument list is a non-negative capacity (below `2^64`); it
is preserved by every message that returns (bang for Next, float, list and add
for Append with valid or invalid input, set, clear, rewind, info, write for
Save, read for Load) unless the message is a Load whose allocation is refused;
hence it holds in every state reachable through those operations. -/
theorem cursor_invariant :
    (∀ (env : Env) (files : Files) (argv : List t_atom),
      (∀ a ∈ argv, ∀ s, a ≠ t_atom.A_SYMBOL s) →
      ((∀ f, first_float argv = some f → 0 ≤ f ∧ f < 2 ^ 64) →
        ∃ x out, binfile_new env files argv = some (x, out)) ∧
      (∀ x out, binfile_new env files argv = some (x, out) → cursors_ok x)) ∧
    (∀ (env : Env) (w v : t_binfile × Files) (m : Method) (out : List Event),
      cursors_ok w.1 → load_refused env w.2 m = false →
      dispatch env w m = some (v, out) → cursors_ok v.1) ∧
    (∀ w, Reachable w → cursors_ok w.1) := by
  have hnew : ∀ (env : Env) (files : Files) (argv : List t_atom),
      (∀ a ∈ argv, ∀ s, a ≠ t_atom.A_SYMBOL s) →
      ∀ x out, binfile_new env files argv = some (x, out) → cursors_ok x := by
    intro env files argv hargs x out h
    obtain ⟨e1, e2⟩ := binfile_new_no_symbol env files argv hargs x out h
    exact ⟨by rw [e1]; exact Nat.zero_le _, by rw [e2]; exact Nat.zero_le _⟩
  refine ⟨fun env files argv hargs =>
      ⟨binfile_new_returns env files argv, hnew env files argv hargs⟩,
    dispatch_cursors, ?_⟩
  intro w hw
  induction hw with
  | construct env files argv x out hargs h => exact hnew env files argv hargs x out h
  | message env w v m out _ hload hstep ih => exact dispatch_cursors env w v m out ih hload hstep

/-- Witness of C2: an object constructed with capacity 4 receives two bytes
and is read once. -/
theorem cursor_invariant_witness :
    cursors_ok { x_fP := none, x_buf := some [1, 2, 0, 0], x_buf_length := 4,
                 x_rd_offset := 1, x_wr_offset := 2 } :=
  cursor_invariant.2.2
    ({ x_fP := none, x_buf := some [1, 2, 0, 0], x_buf_length := 4,
       x_rd_offset := 1, x_wr_offset := 2 }, fun _ => none)
    (Reachable.message ⟨fun _ => true, fun _ => true, 100⟩
      ({ x_fP := none, x_buf := some [1, 2, 0, 0], x_buf_length := 4,
         x_rd_offset := 0, x_wr_offset := 2 }, fun _ => none) _ Method.bang
      [Event.outlet_float .x_bin_outlet 1]
      (Reachable.message ⟨fun _ => true, fun _ => true, 100⟩
        ({ x_fP := none, x_buf := some [0, 0, 0, 0], x_buf_length := 4,
           x_rd_offset := 0, x_wr_offset := 0 }, fun _ => none) _
        (Method.add [int_atom 1, int_atom 2]) []
        (Reachable.construct ⟨fun _ => true, fun _ => true, 100⟩ (fun _ => none)
          [t_atom.A_FLOAT 4] _ []
          (by intro a ha s; rw [List.mem_singleton.mp ha]; simp) (by decide))
        rfl rfl)
      rfl rfl)

/-! ### Clear, Info and the empty file -/

theorem size_t_to_float_small (n : Nat) (h : n < 2 ^ 24) : size_t_to_float n = (n : ℚ) := by
  simp only [size_t_to_float, h, if_true]

theorem log2_of_bounds (n k : Nat) (h1 : 2 ^ k ≤ n) (h2 : n < 2 ^ (k + 1)) : Nat.log2 n = k := by
  rw [Nat.log2_eq_log_two]
  exact Nat.log_eq_of_pow_le_of_lt_pow h1 h2

theorem size_t_to_float_two_pow_24 : size_t_to_float 16777216 = 16777216 := by
  have hl : Nat.log2 16777216 = 24 := log2_of_bounds _ _ (by norm_num) (by norm_num)
  simp only [size_t_to_float, hl]
  norm_num

theorem size_t_to_float_above : size_t_to_float 16777217 = 16777216 := by
  have hl : Nat.log2 16777217 = 24 := log2_of_bounds _ _ (by norm_num) (by norm_num)
  simp only [size_t_to_float, hl]
  norm_num

theorem binfile_info_granted (heap : Nat → Bool) (hheap : heap sizeof_t_atom = true)
    (x : t_binfile) :
    binfile_info heap x = some (x,
      [Event.outlet_anything .x_info_outlet "buflength" (size_t_to_float x.x_buf_length),
       Event.outlet_anything .x_info_outlet "readoffset" (size_t_to_float x.x_rd_offset),
       Event.outlet_anything .x_info_outlet "writeoffset" (size_t_to_float x.x_wr_offset)]) := by
  simp only [binfile_info, getbytes, hheap, if_true]

/-- C11, as amended: Clear followed by Info (its scratch atom granted) sends
three reports in this order: the buffer length `c` converted to a float, which
is `c` itself whenever `c ≤ 16777216`; read offset 0; write offset 0.  Clear
only zeroes the two offsets, so the capacity and the stored bytes are
unchanged, and a call of Info that returns leaves every field as it was. -/
theorem clear_then_info (heap : Nat → Bool) (x : t_binfile) :
    binfile_clear x = { x with x_wr_offset := 0, x_rd_offset := 0 } ∧
    (heap sizeof_t_atom = true →
      binfile_info heap (binfile_clear x) = some (binfile_clear x,
        [Event.outlet_anything .x_info_outlet "buflength" (size_t_to_float x.x_buf_length),
         Event.outlet_anything .x_info_outlet "readoffset" 0,
         Event.outlet_anything .x_info_outlet "writeoffset" 0])) ∧
    (x.x_buf_length ≤ 16777216 → size_t_to_float x.x_buf_length = (x.x_buf_length : ℚ)) ∧
    (∀ y out, binfile_info heap x = some (y, out) → y = x) := by
  refine ⟨rfl, ?_, ?_, ?_⟩
  · intro hheap
    rw [binfile_info_granted heap hheap]
    have h0 : size_t_to_float 0 = 0 := by
      rw [size_t_to_float_small 0 (by norm_num)]
      norm_num
    simp only [binfile_clear, h0]
  · intro hc
    rcases Nat.lt_or_ge x.x_buf_length 16777216 with h | h
    · exact size_t_to_float_small _ (by norm_num; exact h)
    · have he : x.x_buf_length = 16777216 := by omega
      rw [he, size_t_to_float_two_pow_24]
      norm_num
  · intro y out h
    unfold binfile_info at h
    split at h
    · cases h; rfl
    · cases h

/-- Witness of C11 as amended: a buffer of capacity 4 with three written
bytes. -/
theorem clear_then_info_witness :
    binfile_info (fun _ => true)
        (binfile_clear { x_fP := none, x_buf := some [10, 20, 30, 40], x_buf_length := 4,
                         x_rd_offset := 1, x_wr_offset := 3 }) =
      some ({ x_fP := none, x_buf := some [10, 20, 30, 40], x_buf_length := 4,
              x_rd_offset := 0, x_wr_offset := 0 },
        [Event.outlet_anything .x_info_outlet "buflength" 4,
         Event.outlet_anything .x_info_outlet "readoffset" 0,
         Event.outlet_anything .x_info_outlet "writeoffset" 0]) := by
  have h := clear_then_info (fun _ => true)
    { x_fP := none, x_buf := some [10, 20, 30, 40], x_buf_length := 4,
      x_rd_offset := 1, x_wr_offset := 3 }
  rw [h.2.1 rfl, h.2.2.1 (by decide)]
  simp only [binfile_clear, Nat.cast_ofNat]

/-- Counterexample to C11 as stated: on a buffer of capacity 16777217, Clear
followed by Info reports the buffer length 16777216. -/
theorem info_rounds_large_capacity :
    binfile_info (fun _ => true) (binfile_clear large_buffer) =
      some (binfile_clear large_buffer,
        [Event.outlet_anything .x_info_outlet "buflength" 16777216,
         Event.outlet_anything .x_info_outlet "readoffset" 0,
         Event.outlet_anything .x_info_outlet "writeoffset" 0]) ∧
    (binfile_clear large_buffer).x_buf_length = 16777217 := by
  refine ⟨?_, rfl⟩
  rw [binfile_info_granted (fun _ => true) rfl]
  have h0 : size_t_to_float 0 = 0 := by
    rw [size_t_to_float_small 0 (by norm_num)]
    norm_num
  have hc : (binfile_clear large_buffer).x_buf_length = 16777217 := rfl
  have hr : (binfile_clear large_buffer).x_rd_offset = 0 := rfl
  have hw : (binfile_clear large_buffer).x_wr_offset = 0 := rfl
  rw [hc, hr, hw, size_t_to_float_above, h0]

/-- C12: a Load of a path that opens and has length zero returns with the
storage, the capacity and both offsets as they were, whatever the buffer
holds; the object differs from the one before by its stream field alone, and
nothing is reported. -/
theorem load_of_empty_file (env : Env) (files : Files) (x : t_binfile) (path : String)
    (hfile : files (tryPath path) = some []) :
    binfile_read env files x path = ({ x with x_fP := some (tryPath path) }, []) ∧
    (binfile_read env files x path).1.x_buf = x.x_buf ∧
    (binfile_read env files x path).1.x_buf_length = x.x_buf_length ∧
    (binfile_read env files x path).1.x_rd_offset = x.x_rd_offset ∧
    (binfile_read env files x path).1.x_wr_offset = x.x_wr_offset := by
  rw [binfile_read_empty env files x path hfile]
  exact ⟨rfl, rfl, rfl, rfl, rfl⟩

/-- Witness of C12: an empty file loaded over three written bytes. -/
theorem load_of_empty_file_witness :
    binfile_read ⟨fun _ => true, fun _ => true, 100⟩
        (Function.update (fun _ => none) "empty.bin" (some []))
        { x_fP := none, x_buf := some [10, 20, 30, 40], x_buf_length := 4,
          x_rd_offset := 1, x_wr_offset := 3 } "empty.bin" =
      ({ x_fP := some "empty.bin", x_buf := some [10, 20, 30, 40], x_buf_length := 4,
         x_rd_offset := 1, x_wr_offset := 3 }, []) :=
  (load_of_empty_file ⟨fun _ => true, fun _ => true, 100⟩
    (Function.update (fun _ => none) "empty.bin" (some []))
    { x_fP := none, x_buf := some [10, 20, 30, 40], x_buf_length := 4,
      x_rd_offset := 1, x_wr_offset := 3 } "empty.bin" (by decide)).1

/-! ### Construction -/

/-- C13: evaluation at the failing input.  The file `a.bin` holds the bytes
10, 20, 30 and is the only argument.  Load alone puts these bytes into the
buffer, but the constructed object holds a zero-filled block of the same
length: after the loop that reads the file, `binfile_new` assigns a fresh
block from `getbytes` to `x_buf`.  The first Next after construction sends 0,
not 10. -/
theorem construct_with_path_drops_content :
    (binfile_read ⟨fun _ => true, fun _ => true, 100⟩
        (Function.update (fun _ => none) "a.bin" (some [10, 20, 30]))
        { x_fP := none, x_buf := none, x_buf_length := ALLOC_BLOCK_SIZE,
          x_rd_offset := 0, x_wr_offset := 0 } "a.bin").1 =
      { x_fP := none, x_buf := some [10, 20, 30], x_buf_length := 3,
        x_rd_offset := 0, x_wr_offset := 3 } ∧
    binfile_new ⟨fun _ => true, fun _ => true, 100⟩
        (Function.update (fun _ => none) "a.bin" (some [10, 20, 30]))
        [t_atom.A_SYMBOL "a.bin"] =
      some ({ x_fP := none, x_buf := some [0, 0, 0], x_buf_length := 3,
              x_rd_offset := 0, x_wr_offset := 3 },
        [Event.fclose "a.bin", Event.post (.read_bytes 3 "a.bin")]) ∧
    binfile_bang { x_fP := none, x_buf := some [0, 0, 0], x_buf_length := 3,
                   x_rd_offset := 0, x_wr_offset := 3 } =
      some ({ x_fP := none, x_buf := some [0, 0, 0], x_buf_length := 3,
              x_rd_offset := 1, x_wr_offset := 3 },
        [Event.outlet_float .x_bin_outlet 0]) := by
  decide

theorem float_to_size_t_natCast (n : Nat) (h : n < 2 ^ 64) :
    float_to_size_t (n : ℚ) = some n := by
  have hc : ((n : Nat) : ℚ) = ((n : Int) : ℚ) := by push_cast; rfl
  have hn : (0 : Int) ≤ (n : Int) := Int.ofNat_nonneg n
  have hlt : (n : Int) < 2 ^ 64 := by exact_mod_cast h
  simp only [float_to_size_t, hc, float_to_int_intCast, hn, hlt, and_self, if_true,
    Int.toNat_ofNat]

/-- Construction without a path argument: the object and the reports, by the
buffer length that the second loop settles. -/
theorem binfile_new_of_length (env : Env) (files : Files) (argv : List t_atom)
    (hargs : ∀ a ∈ argv, ∀ s, a ≠ t_atom.A_SYMBOL s) (c : Nat)
    (hlen : binfile_new_length
      { x_fP := none, x_buf := none, x_buf_length := ALLOC_BLOCK_SIZE,
        x_rd_offset := 0, x_wr_offset := 0 } argv =
      some { x_fP := none, x_buf := none, x_buf_length := c,
             x_rd_offset := 0, x_wr_offset := 0 }) :
    ∃ x out, binfile_new env files argv = some (x, out) ∧ x.x_buf_length = c ∧
      x.x_rd_offset = 0 ∧ x.x_wr_offset = 0 ∧ x.x_fP = none ∧
      x.x_buf = getbytes env.heap c := by
  simp only [binfile_new, binfile_new_paths_no_symbol env files argv hargs, hlen]
  cases hg : getbytes env.heap c with
  | none => exact ⟨_, _, rfl, rfl, rfl, rfl, rfl, rfl⟩
  | some b => exact ⟨_, _, rfl, rfl, rfl, rfl, rfl, rfl⟩

/-- C14, as amended: construction without a path argument returns with both
offsets 0 and a capacity that is 65536 when the argument list holds no number,
and `n` when its first number is a non-negative integer `n` below `2^64`
(so 0 for the number 0), wherever that number stands in the list. -/
theorem construct_capacity (env : Env) (files : Files) (argv : List t_atom)
    (hargs : ∀ a ∈ argv, ∀ s, a ≠ t_atom.A_SYMBOL s) :
    (first_float argv = none →
      ∃ x out, binfile_new env files argv = some (x, out) ∧ x.x_buf_length = 65536 ∧
        x.x_rd_offset = 0 ∧ x.x_wr_offset = 0) ∧
    (∀ n : Nat, first_float argv = some (n : ℚ) → n < 2 ^ 64 →
      ∃ x out, binfile_new env files argv = some (x, out) ∧ x.x_buf_length = n ∧
        x.x_rd_offset = 0 ∧ x.x_wr_offset = 0) := by
  constructor
  · intro hnone
    obtain ⟨x, out, h, h1, h2, h3, _⟩ := binfile_new_of_length env files argv hargs
      ALLOC_BLOCK_SIZE (by rw [binfile_new_length_eq, hnone])
    exact ⟨x, out, h, h1, h2, h3⟩
  · intro n hsome hn
    obtain ⟨x, out, h, h1, h2, h3, _⟩ := binfile_new_of_length env files argv hargs n
      (by rw [binfile_new_length_eq, hsome]
          simp only [float_to_size_t_natCast n hn, Option.map_some'])
    exact ⟨x, out, h, h1, h2, h3⟩

/-- Witness of C14 as amended: the number 4 behind a pointer atom. -/
theorem construct_capacity_witness :
    ∃ x out, binfile_new ⟨fun _ => true, fun _ => true, 100⟩ (fun _ => none)
        [t_atom.A_POINTER, t_atom.A_FLOAT ((4 : Nat) : ℚ)] = some (x, out) ∧
      x.x_buf_length = 4 ∧ x.x_rd_offset = 0 ∧ x.x_wr_offset = 0 :=
  (construct_capacity ⟨fun _ => true, fun _ => true, 100⟩ (fun _ => none)
    [t_atom.A_POINTER, t_atom.A_FLOAT ((4 : Nat) : ℚ)]
    (by
      intro a ha s
      rcases List.mem_cons.mp ha with h | h
      · rw [h]; simp
      · rw [List.mem_singleton.mp h]; simp)).2 4 rfl (by norm_num)

/-- Counterexample to C14 as stated: with the number 0 as its only argument
the object is constructed with capacity 0, not 65536. -/
theorem construct_with_zero_capacity :
    binfile_new ⟨fun _ => true, fun _ => true, 100⟩ (fun _ => none) [t_atom.A_FLOAT 0] =
      some ({ x_fP := none, x_buf := some [], x_buf_length := 0,
              x_rd_offset := 0, x_wr_offset := 0 }, []) := by
  decide

/-! ### Failure paths -/

/-- C15: evaluation at the failing input.  A buffer of capacity 4 with write
offset 3 and read offset 1 loads the two-byte file `a.bin` while the allocator
refuses the new block: `binfile_read` returns with capacity 0 and a null
buffer, but with write offset 3 and read offset 1 as before (the resets of the
offsets stand after the early return); the next Next then reads through the
null pointer. -/
theorem load_refused_keeps_offsets :
    binfile_read ⟨fun _ => false, fun _ => true, 100⟩
        (Function.update (fun _ => none) "a.bin" (some [1, 2]))
        { x_fP := none, x_buf := some [10, 20, 30, 40], x_buf_length := 4,
          x_rd_offset := 1, x_wr_offset := 3 } "a.bin" =
      ({ x_fP := some "a.bin", x_buf := none, x_buf_length := 0,
         x_rd_offset := 1, x_wr_offset := 3 },
        [Event.error (.unable_to_allocate_for 2 "a.bin")]) ∧
    binfile_bang { x_fP := some "a.bin", x_buf := none, x_buf_length := 0,
                   x_rd_offset := 1, x_wr_offset := 3 } = none := by
  decide

/-- C16: evaluation at the failing input.  The path cannot be opened for
writing; `binfile_write` has no return after the report, so the null stream is
handed to `fwrite` and `fclose`, which is undefined: the call has no defined
result. -/
theorem save_unopenable_is_undefined :
    binfile_write ⟨fun _ => true, fun _ => false, 100⟩ (fun _ => none)
        { x_fP := none, x_buf := some [10, 20, 30, 40], x_buf_length := 4,
          x_rd_offset := 1, x_wr_offset := 3 } "a.bin" = none ∧
    (binfile_open_path ⟨fun _ => true, fun _ => false, 100⟩ (fun _ => none) "a.bin" .wb).1 =
      none ∧
    fwrite ⟨fun _ => true, fun _ => false, 100⟩ (fun _ => none) (some [10, 20, 30, 40]) 3
      none = none :=
  ⟨rfl, rfl, rfl⟩

/-- C17: evaluation at the failing input.  A full buffer of capacity 2
receives one more byte while the allocator refuses the growth: `binfile_add`
stops with the report, capacity and both offsets as before, but `x_buf` has
been assigned the null result of `resizebytes`, so the two bytes written
before are no longer held and the next Next reads through the null pointer. -/
theorem growth_refused_drops_storage :
    binfile_add (fun _ => false)
        { x_fP := none, x_buf := some [1, 2], x_buf_length := 2,
          x_rd_offset := 0, x_wr_offset := 2 } [int_atom 3] =
      some ({ x_fP := none, x_buf := none, x_buf_length := 2,
              x_rd_offset := 0, x_wr_offset := 2 },
        [Event.error .unable_to_resize_buffer]) ∧
    written { x_fP := none, x_buf := none, x_buf_length := 2,
              x_rd_offset := 0, x_wr_offset := 2 } = [] ∧
    binfile_bang { x_fP := none, x_buf := none, x_buf_length := 2,
                   x_rd_offset := 0, x_wr_offset := 2 } = none := by
  decide

/-- C18: evaluation at the failing inputs.  A Load of an empty file, and a
Load whose block is refused, both return through an early return that stands
before `fclose`: the stream field still holds the open stream and no `fclose`
has been sent. -/
theorem load_early_returns_leave_stream_open :
    binfile_read ⟨fun _ => true, fun _ => true, 100⟩
        (Function.update (fun _ => none) "empty.bin" (some []))
        { x_fP := none, x_buf := some [10, 20, 30, 40], x_buf_length := 4,
          x_rd_offset := 1, x_wr_offset := 3 } "empty.bin" =
      ({ x_fP := some "empty.bin", x_buf := some [10, 20, 30, 40], x_buf_length := 4,
         x_rd_offset := 1, x_wr_offset := 3 }, []) ∧
    binfile_read ⟨fun _ => false, fun _ => true, 100⟩
        (Function.update (fun _ => none) "a.bin" (some [1, 2]))
        { x_fP := none, x_buf := some [10, 20, 30, 40], x_buf_length := 4,
          x_rd_offset := 1, x_wr_offset := 3 } "a.bin" =
      ({ x_fP := some "a.bin", x_buf := none, x_buf_length := 0,
         x_rd_offset := 1, x_wr_offset := 3 },
        [Event.error (.unable_to_allocate_for 2 "a.bin")]) := by
  decide

/-! ### Byte values and the order of the outputs -/

theorem getD_of_take_succ (c b : List byte) (w : Nat) (ch : byte) (hb : w ≤ b.length)
    (h : c.take (w + 1) = b.take w ++ [ch]) : c.getD w 0 = ch := by
  have h2 := congrArg (fun l => List.get? l w) h
  simp only [List.get?_eq_getElem?, List.getElem?_take] at h2
  simp [List.getElem?_append_right, hb] at h2
  rw [List.getD_eq_getElem?_getD, h2]
  rfl

theorem int_to_char_cast (v : Int) :
    (((int_to_char v).val : Nat) : ℚ) = ((v % 256 : Int) : ℚ) := by
  have h : (((int_to_char v).val : Nat) : Int) = v % 256 := by
    simp only [int_to_char]
    omega
  rw [← h]
  push_cast
  rfl

/-- C19: every integer `v` that Append accepts (`-128 ≤ v ≤ 255`) is stored
so that Next, reading the cell it was written to, sends `v` modulo 256: `v`
itself for `0 ≤ v`, and `v + 256` for a negative `v`.  And whatever the state,
every byte value that a call of Next sends is a whole number from 0 to 255. -/
theorem append_then_next_sends_mod (heap : Nat → Bool) (x : t_binfile) (v : Int)
    (hv : -128 ≤ v ∧ v ≤ 255) (hx : block_ok x) (hw : x.x_wr_offset ≤ x.x_buf_length)
    (hheap : x.x_wr_offset = x.x_buf_length →
      heap (x.x_buf_length + ALLOC_BLOCK_SIZE) = true) :
    (∃ y, binfile_float heap x (v : ℚ) = some (y, []) ∧
      y.x_wr_offset = x.x_wr_offset + 1 ∧
      binfile_bang { y with x_rd_offset := x.x_wr_offset } =
        some ({ y with x_rd_offset := x.x_wr_offset + 1 },
          [Event.outlet_bang .x_bang_outlet,
           Event.outlet_float .x_bin_outlet ((v % 256 : Int) : ℚ)])) ∧
    (v < 0 → v % 256 = v + 256) ∧ (0 ≤ v → v % 256 = v) ∧
    (∀ (z z1 : t_binfile) (out : List Event) (o : Outlet) (q : ℚ),
      binfile_bang z = some (z1, out) → Event.outlet_float o q ∈ out →
      ∃ n : Nat, n ≤ 255 ∧ q = (n : ℚ)) := by
  refine ⟨?_, fun h => by omega, fun h => by omega, ?_⟩
  · obtain ⟨b, hb, hlen⟩ := hx
    obtain ⟨y, c, hy, hyb, hyl, hyw, hyc, _, _, _, hyt⟩ :=
      add_body_int heap 0 v hv x b hb hlen hw hheap
    have hy2 : binfile_add_body heap 0 (t_atom.A_FLOAT (v : ℚ)) x = .next y := hy
    refine ⟨y, by simp only [binfile_float, binfile_add, binfile_add_loop, hy2], hyw, ?_⟩
    rw [hyw] at hyt
    have hch : c.getD x.x_wr_offset 0 = int_to_char v :=
      getD_of_take_succ c b x.x_wr_offset (int_to_char v) (by omega) hyt
    rw [binfile_bang_lt { y with x_rd_offset := x.x_wr_offset } c hyb
      (by show y.x_wr_offset ≤ c.length; omega)
      (by show x.x_wr_offset < y.x_wr_offset; omega)]
    simp only [bang_output, hyw, if_true, hch, int_to_char_cast, List.singleton_append]
  · intro z z1 out o q h hq
    unfold binfile_bang at h
    by_cases hlt : z.x_rd_offset < z.x_wr_offset
    · rw [if_pos hlt] at h
      split at h
      · rename_i c _
        cases h
        refine ⟨c.val, by have := c.isLt; omega, ?_⟩
        by_cases he : z.x_rd_offset + 1 = z.x_wr_offset
        · simp [he] at hq
          exact hq.2
        · simp [he] at hq
          exact hq.2
      · cases h
    · rw [if_neg hlt] at h
      cases h
      simp at hq

/-- Witness of C19: the value -3 appended to a consumed buffer is read back as
253. -/
theorem append_then_next_sends_mod_witness :
    ∃ y, binfile_float (fun _ => false)
        { x_fP := none, x_buf := some [10, 20, 30, 40], x_buf_length := 4,
          x_rd_offset := 2, x_wr_offset := 2 } ((-3 : Int) : ℚ) = some (y, []) ∧
      y.x_wr_offset = 2 + 1 ∧
      binfile_bang { y with x_rd_offset := 2 } =
        some ({ y with x_rd_offset := 2 + 1 },
          [Event.outlet_bang .x_bang_outlet,
           Event.outlet_float .x_bin_outlet (((-3) % 256 : Int) : ℚ)]) :=
  (append_then_next_sends_mod (fun _ => false)
    { x_fP := none, x_buf := some [10, 20, 30, 40], x_buf_length := 4,
      x_rd_offset := 2, x_wr_offset := 2 } (-3) (by decide)
    ⟨[10, 20, 30, 40], rfl, by decide⟩ (by decide) (by decide)).1

/-- C20: a call of Next that finds a byte to read (block allocated, read
offset below write offset) returns; each output is sent with the read offset
already incremented.  When the call consumes the final byte, it sends two
outputs, the end-of-data bang first and the byte value second; otherwise it
sends exactly one output, the byte value.  The outputs so paired with the
object are those of `binfile_bang`. -/
theorem next_output_order (x : t_binfile) (b : List byte) (hb : x.x_buf = some b)
    (hlen : x.x_wr_offset ≤ b.length) (hlt : x.x_rd_offset < x.x_wr_offset) :
    (x.x_rd_offset + 1 = x.x_wr_offset →
      binfile_bang_sends x =
        some [({ x with x_rd_offset := x.x_rd_offset + 1 },
                Event.outlet_bang .x_bang_outlet),
              ({ x with x_rd_offset := x.x_rd_offset + 1 },
                Event.outlet_float .x_bin_outlet (((b.getD x.x_rd_offset 0).val : Nat) : ℚ))]) ∧
    (x.x_rd_offset + 1 ≠ x.x_wr_offset →
      binfile_bang_sends x =
        some [({ x with x_rd_offset := x.x_rd_offset + 1 },
                Event.outlet_float .x_bin_outlet (((b.getD x.x_rd_offset 0).val : Nat) : ℚ))]) ∧
    (∃ sends, binfile_bang_sends x = some sends ∧
      binfile_bang x =
        some ({ x with x_rd_offset := x.x_rd_offset + 1 }, sends.map Prod.snd)) := by
  have hr : x.x_rd_offset < b.length := by omega
  have hget : x.x_buf.bind (fun b => b[x.x_rd_offset]?) = some (b.getD x.x_rd_offset 0) := by
    simp [hb, List.getD_eq_getElem?_getD, List.getElem?_eq_getElem hr]
  refine ⟨?_, ?_, ?_⟩
  · intro he
    simp only [binfile_bang_sends, hlt, if_true, hget, he, List.cons_append, List.nil_append]
  · intro hne
    simp only [binfile_bang_sends, hlt, if_true, hget, hne, if_false, List.nil_append]
  · refine ⟨(if x.x_rd_offset + 1 = x.x_wr_offset then
        [({ x with x_rd_offset := x.x_rd_offset + 1 }, Event.outlet_bang .x_bang_outlet)]
       else []) ++
      [({ x with x_rd_offset := x.x_rd_offset + 1 },
        Event.outlet_float .x_bin_outlet (((b.getD x.x_rd_offset 0).val : Nat) : ℚ))], ?_, ?_⟩
    · simp only [binfile_bang_sends, hlt, if_true, hget]
    · simp only [binfile_bang, hlt, if_true, hget]
      by_cases he : x.x_rd_offset + 1 = x.x_wr_offset
      · rw [if_pos he, if_pos he]
        rfl
      · rw [if_neg he, if_neg he]
        rfl

/-- Witness of C20: the call that consumes the last of three bytes. -/
theorem next_output_order_witness :
    binfile_bang_sends { x_fP := none, x_buf := some [10, 20, 30, 40], x_buf_length := 4,
                         x_rd_offset := 2, x_wr_offset := 3 } =
      some [({ x_fP := none, x_buf := some [10, 20, 30, 40], x_buf_length := 4,
               x_rd_offset := 3, x_wr_offset := 3 }, Event.outlet_bang .x_bang_outlet),
            ({ x_fP := none, x_buf := some [10, 20, 30, 40], x_buf_length := 4,
               x_rd_offset := 3, x_wr_offset := 3 }, Event.outlet_float .x_bin_outlet 30)] := by
  have h := (next_output_order
    { x_fP := none, x_buf := some [10, 20, 30, 40], x_buf_length := 4,
      x_rd_offset := 2, x_wr_offset := 3 } [10, 20, 30, 40] rfl (by decide) (by decide)).1 rfl
  rw [h]
  decide

end Binfile
